import Mathlib

/-!
Verification of the FGP Vercel example client (`examples/basic_operations.py`).

The development shallowly embeds the client:
  * `Json` models the values handled by Python's `json` module.  JSON numbers
    are modelled as integers: every number occurring in the protocol envelope
    (`v`, `limit`, ...) is integral, and floating-point payloads are outside
    the scope of this model.  Objects are association lists in insertion
    order, matching Python's insertion-ordered dicts.
  * `dumpVal` / `loads` model `json.dumps` (with its default
    `ensure_ascii=True` and `(", ", ": ")` separators) and `json.loads`.
  * `utf8Encode` / `utf8Decode` model `str.encode()` / `bytes.decode()`.
  * `readLoopF` models the `while True: ... recv ...` loop of `call_daemon`,
    with the sequence of `recv` results given as a list of byte chunks
    (an empty chunk, or exhaustion of the list, models EOF).
  * `listProjectsRender` / `renderDeploy` model the presentation routines as
    functions from the decoded response to the list of printed lines,
    in the `Except` monad so that a raised Python exception is `.error`.
-/

set_option maxHeartbeats 1600000

namespace FGPVercel

/-- JSON values as handled by the client.  Numbers are modelled as integers
(see module docstring); objects are insertion-ordered association lists. -/
inductive Json where
  | null : Json
  | bool (b : Bool) : Json
  | num (n : Int) : Json
  | str (s : String) : Json
  | arr (elems : List Json) : Json
  | obj (members : List (String × Json)) : Json
deriving Repr

/-- Python exception classes that the modelled code can raise. -/
inductive PyErr where
  | attrError : PyErr
  | keyError : PyErr
  | typeError : PyErr
deriving Repr, DecidableEq

/-- Last-binding lookup: a Python dict built from an association list keeps
the value of the last occurrence of a duplicated key. -/
def lookupLast (ms : List (String × Json)) (k : String) : Option Json :=
  match ms with
  | [] => none
  | (k', v) :: rest =>
    match lookupLast rest k with
    | some r => some r
    | none => if k' = k then some v else none

/-- `d.get(k, default)` on a Python dict; raises `AttributeError` when the
receiver is not a dict (it has no `.get`). -/
def dictGet (j : Json) (k : String) (dflt : Json) : Except PyErr Json :=
  match j with
  | .obj ms =>
    match lookupLast ms k with
    | some v => .ok v
    | none => .ok dflt
  | _ => .error .attrError

/-- `d[k]` on a Python dict; `KeyError` when absent, `TypeError` when the
receiver is not a dict. -/
def dictIndex (j : Json) (k : String) : Except PyErr Json :=
  match j with
  | .obj ms =>
    match lookupLast ms k with
    | some v => .ok v
    | none => .error .keyError
  | _ => .error .typeError

/-- Python truthiness of a decoded JSON value. -/
def pyTruthy : Json → Bool
  | .null => false
  | .bool b => b
  | .num n => decide (n ≠ 0)
  | .str s => decide (s ≠ "")
  | .arr xs => !xs.isEmpty
  | .obj ms => !ms.isEmpty

/-- Decimal digit character for `d < 10`. -/
def decDigitChar (d : Nat) : Char := Char.ofNat (48 + d)

/-- Little-endian decimal digits of `n` (empty for `0`). -/
def natDigitsRev (n : Nat) : List Char :=
  if n = 0 then [] else decDigitChar (n % 10) :: natDigitsRev (n / 10)
decreasing_by exact Nat.div_lt_self (Nat.pos_of_ne_zero (by assumption)) (by omega)

/-- Decimal representation of a natural number, as Python prints it. -/
def natRepr (n : Nat) : List Char :=
  if n = 0 then ['0'] else (natDigitsRev n).reverse

/-- Decimal representation of an integer, as Python prints it. -/
def intRepr : Int → List Char
  | .ofNat n => natRepr n
  | .negSucc m => '-' :: natRepr (m + 1)

/-- Python `str()` of a decoded JSON value, as interpolated by an f-string.
`arr`/`obj` use a simplified `repr` (quoting of exotic strings inside
containers is not modelled; no claim depends on it). -/
def pyStr : Json → String
  | .null => "None"
  | .bool true => "True"
  | .bool false => "False"
  | .num n => String.mk (intRepr n)
  | .str s => s
  | .arr _ => "<list>"
  | .obj _ => "<dict>"

/-- The `state → icon` lookup table of `list_deployments` (source lines
83–88). -/
def stateIconTable : List (String × String) :=
  [("READY", "🟢"), ("ERROR", "🔴"), ("BUILDING", "🟡"), ("QUEUED", "⚪")]

/-- The icon chosen for a state string: the table entry when present, the
default `"⚪"` otherwise (`{...}.get(state, "⚪")`). -/
def iconForStr (s : String) : String :=
  match stateIconTable.lookup s with
  | some i => i
  | none => "⚪"

/-- `{...}.get(state, "⚪")` for an arbitrary decoded `state` value: a dict or
list key raises `TypeError` (unhashable); any other non-string value misses
every (string) key of the table and yields the default. -/
def iconFor (state : Json) : Except PyErr String :=
  match state with
  | .arr _ => .error .typeError
  | .obj _ => .error .typeError
  | .str s => .ok (iconForStr s)
  | _ => .ok "⚪"

/-- Python `x[:50]` as used on the commit message: string slice for strings;
other receivers are outside the modelled scope. -/
def slice50 (j : Json) : Except PyErr String :=
  match j with
  | .str s => .ok (String.mk (s.data.take 50))
  | _ => .error .typeError

/-- Sequencing of Python statements that may raise: a raised exception in the
first part aborts the rest. -/
def andThen (x : Except PyErr α) (f : α → Except PyErr β) : Except PyErr β :=
  match x with
  | .error e => .error e
  | .ok a => f a

@[simp] theorem andThen_ok (a : α) (f : α → Except PyErr β) :
    andThen (.ok a) f = f a := rfl

@[simp] theorem andThen_err (e : PyErr) (f : α → Except PyErr β) :
    andThen (.error e) f = .error e := rfl

/-- The body of the `for deploy in deployments` loop of `list_deployments`
(source lines 81–95), returning the lines printed for one record. -/
def renderDeploy (d : Json) : Except PyErr (List String) :=
  andThen (dictGet d "state" (.str "unknown")) fun state =>
  andThen (iconFor state) fun icon =>
  andThen (dictGet d "url" (.str "no-url")) fun url =>
  andThen (dictGet d "created" (.str "unknown")) fun created =>
  andThen (dictGet d "meta" (.obj [])) fun meta =>
  andThen (dictGet meta "githubCommitMessage" .null) fun commitMsg =>
  andThen (if pyTruthy commitMsg then
      andThen (dictIndex d "meta") fun m =>
      andThen (dictIndex m "githubCommitMessage") fun cm =>
      andThen (slice50 cm) fun sliced =>
      .ok ["     Commit: " ++ sliced ++ "..."]
    else .ok ([] : List String)) fun commitLines =>
  .ok (["  " ++ icon ++ " " ++ pyStr url,
        "     State: " ++ pyStr state,
        "     Created: " ++ pyStr created] ++ commitLines ++ [""])

/-- The body of the `for project in projects` loop of `list_projects`
(source lines 55–60), returning the lines printed for one record. -/
def renderProject (p : Json) : Except PyErr (List String) :=
  andThen (dictGet p "framework" (.str "unknown")) fun fw =>
  andThen (dictGet p "name" .null) fun name =>
  andThen (dictGet p "updatedAt" (.str "unknown")) fun upd =>
  .ok ["  • " ++ pyStr name,
       "    Framework: " ++ pyStr fw,
       "    Updated: " ++ pyStr upd,
       ""]

/-- The `"-" * 40` separator line. -/
def dashLine : String := String.mk (List.replicate 40 '-')

/-- Elements yielded by `for x in xs` over a decoded JSON value.  Only list
iteration is in the modelled scope (iterating a string or a dict never occurs
in the protocol and is not modelled). -/
def pyIter (j : Json) : Except PyErr (List Json) :=
  match j with
  | .arr xs => .ok xs
  | _ => .error .typeError

/-- Monadic map over a list in the `Except` monad, as executed by the Python
`for` loop: the first raised exception aborts the whole loop. -/
def mapExcept (f : α → Except PyErr β) : List α → Except PyErr (List β)
  | [] => .ok []
  | a :: as =>
    andThen (f a) fun b =>
    andThen (mapExcept f as) fun bs =>
    .ok (b :: bs)

/-- `list_projects` (source lines 44–62) as a function from the decoded
response of `call_daemon("vercel.projects", {})` to the printed lines. -/
def listProjectsRender (result : Json) : Except PyErr (List String) :=
  let header := ["\n🚀 Vercel Projects", dashLine]
  andThen (dictGet result "ok" .null) fun ok =>
  if pyTruthy ok then
    andThen (dictIndex result "result") fun res =>
    andThen (dictGet res "projects" (.arr [])) fun projects =>
    let noneLine := if pyTruthy projects then ([] : List String)
                    else ["  No projects found"]
    andThen (pyIter projects) fun items =>
    andThen (mapExcept renderProject items) fun blocks =>
    .ok (header ++ noneLine ++ blocks.flatten)
  else
    andThen (dictGet result "error" .null) fun err =>
    .ok (header ++ ["  ❌ Error: " ++ pyStr err])

/-- `list_deployments` (source lines 65–97) as a function from the decoded
response to the printed lines (the header shows no project name when the
argument is absent, as in the script's own invocation). -/
def listDeploymentsRender (result : Json) : Except PyErr (List String) :=
  let header := ["\n📦 Recent Deployments ", dashLine]
  andThen (dictGet result "ok" .null) fun ok =>
  if pyTruthy ok then
    andThen (dictIndex result "result") fun res =>
    andThen (dictGet res "deployments" (.arr [])) fun deployments =>
    let noneLine := if pyTruthy deployments then ([] : List String)
                    else ["  No deployments found"]
    andThen (pyIter deployments) fun items =>
    andThen (mapExcept renderDeploy items) fun blocks =>
    .ok (header ++ noneLine ++ blocks.flatten)
  else
    andThen (dictGet result "error" .null) fun err =>
    .ok (header ++ ["  ❌ Error: " ++ pyStr err])

/-! Helper lemmas about the presentation layer. -/

theorem dictGet_obj (ms : List (String × Json)) (k : String) (d : Json) :
    dictGet (.obj ms) k d = .ok ((lookupLast ms k).getD d) := by
  cases h : lookupLast ms k <;> simp [dictGet, h]

theorem renderDeploy_head (ms : List (String × Json)) (s : String)
    (lines : List String)
    (hst : lookupLast ms "state" = some (.str s))
    (hok : renderDeploy (.obj ms) = .ok lines) :
    ∃ t rest, lines = ("  " ++ iconForStr s ++ " " ++ t) :: rest := by
  simp only [renderDeploy, dictGet_obj, hst, Option.getD_some, iconFor,
    andThen_ok] at hok
  cases hmeta : dictGet ((lookupLast ms "meta").getD (.obj []))
      "githubCommitMessage" .null with
  | error e => rw [hmeta] at hok; simp [andThen] at hok
  | ok commitMsg =>
    rw [hmeta] at hok
    simp only [andThen_ok] at hok
    cases hcl : (if pyTruthy commitMsg then
        andThen (dictIndex (Json.obj ms) "meta") fun m =>
        andThen (dictIndex m "githubCommitMessage") fun cm =>
        andThen (slice50 cm) fun sliced =>
        Except.ok ["     Commit: " ++ sliced ++ "..."]
      else .ok ([] : List String)) with
    | error e => rw [hcl] at hok; simp [andThen] at hok
    | ok commitLines =>
      rw [hcl] at hok
      simp only [andThen_ok, Except.ok.injEq] at hok
      exact ⟨pyStr ((lookupLast ms "url").getD (.str "no-url")), _, hok.symm⟩

/-- Claim C5: for every well-formed response object whose `ok` flag is the
boolean `false` and whose `error` field is the string `e`, `list_projects`
prints the literal error text `e` and returns normally (no exception). -/
theorem claim_C5 (ms : List (String × Json)) (e : String)
    (hok : lookupLast ms "ok" = some (.bool false))
    (herr : lookupLast ms "error" = some (.str e)) :
    listProjectsRender (.obj ms) =
      .ok ["\n🚀 Vercel Projects", dashLine, "  ❌ Error: " ++ e] := by
  simp [listProjectsRender, dictGet_obj, hok, herr, pyTruthy, pyStr]

theorem claim_C5_witness :
    listProjectsRender (.obj [("ok", .bool false), ("error", .str "rate limited")]) =
      .ok ["\n🚀 Vercel Projects", dashLine, "  ❌ Error: " ++ "rate limited"] :=
  claim_C5 [("ok", .bool false), ("error", .str "rate limited")] "rate limited"
    rfl rfl

/-- Claim C6: on the response `{"ok": true, "result": {"projects": []}}` the
projects listing prints the no-results indicator and returns without fault;
and every project record lacking a `framework` key renders with the
placeholder `unknown` instead of faulting on the missing key. -/
theorem claim_C6 (ms : List (String × Json))
    (hfw : lookupLast ms "framework" = none) :
    listProjectsRender
        (.obj [("ok", .bool true), ("result", .obj [("projects", .arr [])])]) =
      .ok ["\n🚀 Vercel Projects", dashLine, "  No projects found"] ∧
    ∃ l0 l2, renderProject (.obj ms) =
      .ok [l0, "    Framework: " ++ "unknown", l2, ""] := by
  refine ⟨by rfl, ?_⟩
  refine ⟨"  • " ++ pyStr ((lookupLast ms "name").getD .null),
    "    Updated: " ++ pyStr ((lookupLast ms "updatedAt").getD (.str "unknown")),
    ?_⟩
  simp [renderProject, dictGet_obj, hfw, pyStr]

theorem claim_C6_witness :
    (listProjectsRender
        (.obj [("ok", .bool true), ("result", .obj [("projects", .arr [])])]) =
      .ok ["\n🚀 Vercel Projects", dashLine, "  No projects found"]) ∧
    ∃ l0 l2, renderProject (.obj [("name", .str "site")]) =
      .ok [l0, "    Framework: " ++ "unknown", l2, ""] :=
  claim_C6 [("name", .str "site")] rfl

/-- Claim C7: whenever a deployment record whose `state` field is the string
`s` renders successfully, its first printed line carries the marker chosen
from the fixed lookup table (with `READY` mapped to `🟢`), and every state
string absent from the table gets the default marker `⚪`. -/
theorem claim_C7 (ms : List (String × Json)) (s : String)
    (hst : lookupLast ms "state" = some (.str s)) :
    (∀ lines, renderDeploy (.obj ms) = .ok lines →
      ∃ t rest, lines = ("  " ++ iconForStr s ++ " " ++ t) :: rest) ∧
    iconForStr "READY" = "🟢" ∧
    (∀ s', stateIconTable.lookup s' = none → iconForStr s' = "⚪") := by
  refine ⟨fun lines hok => renderDeploy_head ms s lines hst hok, rfl, ?_⟩
  intro s' h
  simp [iconForStr, h]

theorem claim_C7_witness :
    ((∀ lines,
        renderDeploy (.obj [("state", .str "READY")]) = .ok lines →
        ∃ t rest, lines = ("  " ++ iconForStr "READY" ++ " " ++ t) :: rest) ∧
      iconForStr "READY" = "🟢" ∧
      (∀ s', stateIconTable.lookup s' = none → iconForStr s' = "⚪")) ∧
    renderDeploy (.obj [("state", .str "READY")]) =
      .ok ["  🟢 no-url", "     State: READY", "     Created: unknown", ""] :=
  ⟨claim_C7 [("state", .str "READY")] "READY" rfl, rfl⟩

/-- Claim C10: the default marker of the deployments listing, used for every
state string absent from the lookup table, coincides with the marker the
table assigns to `QUEUED`; a record in an unrecognized state therefore
renders with a queued deployment's marker. -/
theorem claim_C10 :
    stateIconTable.lookup "QUEUED" = some "⚪" ∧
    (∀ s, stateIconTable.lookup s = none → iconForStr s = iconForStr "QUEUED") ∧
    (∀ ms s lines, lookupLast ms "state" = some (.str s) →
      stateIconTable.lookup s = none →
      renderDeploy (.obj ms) = .ok lines →
      ∃ t rest, lines = ("  " ++ iconForStr "QUEUED" ++ " " ++ t) :: rest) := by
  refine ⟨rfl, fun s h => by simp [iconForStr, h]; rfl, ?_⟩
  intro ms s lines hst hmiss hok
  have := renderDeploy_head ms s lines hst hok
  rwa [show iconForStr s = iconForStr "QUEUED" by simp [iconForStr, hmiss]; rfl] at this

theorem claim_C10_witness :
    (stateIconTable.lookup "CANCELED" = none) ∧
    iconForStr "CANCELED" = iconForStr "QUEUED" :=
  ⟨rfl, claim_C10.2.1 "CANCELED" rfl⟩

/-! JSON serialization: `json.dumps` with its defaults (`ensure_ascii=True`,
separators `", "` and `": "`, `sort_keys=False`). -/

/-- Lowercase hexadecimal digit character for `d < 16`. -/
def hexDigitChar (d : Nat) : Char :=
  if d < 10 then Char.ofNat (48 + d) else Char.ofNat (87 + d)

/-- Four lowercase hex digits of `n < 0x10000`, as `"%04x" % n`. -/
def hex4 (n : Nat) : List Char :=
  [hexDigitChar (n / 4096 % 16), hexDigitChar (n / 256 % 16),
   hexDigitChar (n / 16 % 16), hexDigitChar (n % 16)]

/-- Escape one character as the `ensure_ascii` encoder does: named escapes
for `"\\"`, `"\""` and the five short control escapes, other chars in
`0x20–0x7e` stand for themselves, everything else becomes `\uXXXX`
(a surrogate pair for code points beyond the basic plane). -/
def escapeChar (c : Char) : List Char :=
  if c = '"' then ['\\', '"']
  else if c = '\\' then ['\\', '\\']
  else if c = '\x08' then ['\\', 'b']
  else if c = '\t' then ['\\', 't']
  else if c = '\n' then ['\\', 'n']
  else if c = '\x0c' then ['\\', 'f']
  else if c = '\r' then ['\\', 'r']
  else if 0x20 ≤ c.toNat ∧ c.toNat ≤ 0x7e then [c]
  else if c.toNat < 0x10000 then '\\' :: 'u' :: hex4 c.toNat
  else
    ('\\' :: 'u' :: hex4 (0xD800 + (c.toNat - 0x10000) / 0x400)) ++
    ('\\' :: 'u' :: hex4 (0xDC00 + (c.toNat - 0x10000) % 0x400))

/-- Escape every character of a string body. -/
def escapeList : List Char → List Char
  | [] => []
  | c :: cs => escapeChar c ++ escapeList cs

/-- A JSON string literal: quote, escaped body, quote. -/
def quoteStr (s : String) : List Char :=
  '"' :: (escapeList s.data ++ ['"'])

mutual

/-- `json.dumps` of a value, as a character list. -/
def dumpVal : Json → List Char
  | .null => ['n', 'u', 'l', 'l']
  | .bool true => 't' :: 'r' :: ['u', 'e']
  | .bool false => ['f', 'a', 'l', 's', 'e']
  | .num n => intRepr n
  | .str s => quoteStr s
  | .arr [] => ['[', ']']
  | .arr (x :: xs) => '[' :: (dumpVal x ++ dumpArrTail xs)
  | .obj [] => ['{', '}']
  | .obj ((k, v) :: ms) =>
    '{' :: (quoteStr k ++ (':' :: ' ' :: (dumpVal v ++ dumpObjTail ms)))

/-- The remainder of an array literal after its first element: `", "`-joined
further elements and the closing bracket. -/
def dumpArrTail : List Json → List Char
  | [] => [']']
  | x :: xs => ',' :: ' ' :: (dumpVal x ++ dumpArrTail xs)

/-- The remainder of an object literal after its first member. -/
def dumpObjTail : List (String × Json) → List Char
  | [] => ['}']
  | (k, v) :: ms =>
    ',' :: ' ' :: (quoteStr k ++ (':' :: ' ' :: (dumpVal v ++ dumpObjTail ms)))

end

/-! JSON parsing: `json.loads`.  The grammar follows CPython's pure-Python
scanner in strict mode, restricted to the integer fragment (a number token
continued by `.`/`e`/`E` would be a Python float, which is outside this
model's scope), and to strings without lone surrogates (a Lean `Char` cannot
hold a lone surrogate; `json.dumps` never emits one). -/

/-- JSON whitespace, as skipped by the scanner (`' \t\n\r'`). -/
def isJsonWs (c : Char) : Bool :=
  c = ' ' || c = '\t' || c = '\n' || c = '\r'

/-- Skip JSON whitespace. -/
def skipWs (cs : List Char) : List Char := cs.dropWhile isJsonWs

/-- ASCII decimal digit test. -/
def isDigitC (c : Char) : Bool := 48 ≤ c.toNat && c.toNat ≤ 57

/-- Value of an ASCII decimal digit. -/
def digitVal (c : Char) : Nat := c.toNat - 48

/-- Value of a big-endian decimal digit string. -/
def digitsToNat (ds : List Char) : Nat :=
  ds.foldl (fun a c => a * 10 + digitVal c) 0

/-- Value of a hex digit character, either case. -/
def hexVal (c : Char) : Option Nat :=
  if 48 ≤ c.toNat ∧ c.toNat ≤ 57 then some (c.toNat - 48)
  else if 97 ≤ c.toNat ∧ c.toNat ≤ 102 then some (c.toNat - 87)
  else if 65 ≤ c.toNat ∧ c.toNat ≤ 70 then some (c.toNat - 55)
  else none

/-- The two-character escapes accepted after a backslash (other than `\u`). -/
def simpleEsc (e : Char) : Option Char :=
  if e = '"' then some '"'
  else if e = '\\' then some '\\'
  else if e = '/' then some '/'
  else if e = 'b' then some '\x08'
  else if e = 'f' then some '\x0c'
  else if e = 'n' then some '\n'
  else if e = 'r' then some '\r'
  else if e = 't' then some '\t'
  else none

/-- Value of four hex digit characters, as `int(s[pos:pos+4], 16)`. -/
def hexQuad (a b c d : Char) : Option Nat :=
  match hexVal a, hexVal b, hexVal c, hexVal d with
  | some ha, some hb, some hc, some hd =>
    some (ha * 4096 + hb * 256 + hc * 16 + hd)
  | _, _, _, _ => none

mutual

/-- Parse a string body after the opening quote, returning the decoded
characters and the input after the closing quote.  Strict mode: raw control
characters are rejected; surrogate escape pairs are combined. -/
def parseStringBody : List Char → Option (List Char × List Char)
  | [] => none
  | c :: rest =>
    if c = '"' then some ([], rest)
    else if c = '\\' then parseEscape rest
    else if c.toNat < 0x20 then none
    else (parseStringBody rest).map fun p => (c :: p.1, p.2)

/-- Handle the character(s) after a backslash. -/
def parseEscape : List Char → Option (List Char × List Char)
  | [] => none
  | e :: rest1 =>
    if e = 'u' then
      match rest1 with
      | a :: b :: c1 :: d :: rest2 =>
        match hexQuad a b c1 d with
        | none => none
        | some n =>
          if 0xD800 ≤ n ∧ n ≤ 0xDBFF then parseLowSurrogate n rest2
          else if 0xDC00 ≤ n ∧ n ≤ 0xDFFF then none
          else (parseStringBody rest2).map fun p => (Char.ofNat n :: p.1, p.2)
      | _ => none
    else
      match simpleEsc e with
      | some ec => (parseStringBody rest1).map fun p => (ec :: p.1, p.2)
      | none => none

/-- Expect the `\uXXXX` low half following a high surrogate of value `n`. -/
def parseLowSurrogate (n : Nat) : List Char → Option (List Char × List Char)
  | e1 :: e2 :: a2 :: b2 :: c2 :: d2 :: rest3 =>
    if e1 = '\\' ∧ e2 = 'u' then
      match hexQuad a2 b2 c2 d2 with
      | none => none
      | some m =>
        if 0xDC00 ≤ m ∧ m ≤ 0xDFFF then
          (parseStringBody rest3).map fun p =>
            (Char.ofNat (0x10000 + (n - 0xD800) * 0x400 + (m - 0xDC00))
              :: p.1, p.2)
        else none
    else none
  | _ => none

end

/-- Reject a number continued by `.`/`e`/`E` (a float literal, outside the
modelled integer fragment of the grammar). -/
def numTailGuard (n : Nat) (rest : List Char) : Option (Nat × List Char) :=
  match rest with
  | c :: _ => if c = '.' ∨ c = 'e' ∨ c = 'E' then none else some (n, rest)
  | [] => some (n, rest)

/-- Parse an unsigned integer token: `0` or a nonzero digit followed by more
digits (`0 | [1-9][0-9]*`, as in the scanner's number regex). -/
def parseNum (cs : List Char) : Option (Nat × List Char) :=
  match cs with
  | c :: rest =>
    if c = '0' then numTailGuard 0 rest
    else if isDigitC c then
      numTailGuard (digitsToNat (cs.takeWhile isDigitC)) (cs.dropWhile isDigitC)
    else none
  | [] => none

/-- The tail of the `true` token after its leading `t`. -/
def parseTrueTail : List Char → Option (Json × List Char)
  | 'r' :: 'u' :: 'e' :: r => some (.bool true, r)
  | _ => none

/-- The tail of the `false` token after its leading `f`. -/
def parseFalseTail : List Char → Option (Json × List Char)
  | 'a' :: 'l' :: 's' :: 'e' :: r => some (.bool false, r)
  | _ => none

/-- The tail of the `null` token after its leading `n`. -/
def parseNullTail : List Char → Option (Json × List Char)
  | 'u' :: 'l' :: 'l' :: r => some (.null, r)
  | _ => none

mutual

/-- Parse one JSON value at a whitespace-free position; the fuel, spent one
unit per nested step, bounds the recursion and is in surplus wherever the
functions are used. -/
def parseVal : Nat → List Char → Option (Json × List Char)
  | 0, _ => none
  | fuel + 1, cs =>
    match cs with
    | [] => none
    | c :: rest =>
      if c = '{' then parseObjBody fuel (skipWs rest)
      else if c = '[' then parseArrBody fuel (skipWs rest)
      else if c = '"' then
        match parseStringBody rest with
        | none => none
        | some (s, r) => some (.str (String.mk s), r)
      else if c = 't' then parseTrueTail rest
      else if c = 'f' then parseFalseTail rest
      else if c = 'n' then parseNullTail rest
      else if c = '-' then
        match parseNum rest with
        | some (n, r) => some (.num (-(n : Int)), r)
        | none => none
      else if isDigitC c then
        match parseNum cs with
        | some (n, r) => some (.num (n : Int), r)
        | none => none
      else none

/-- Parse an object after `{` and whitespace: `}` or the first member. -/
def parseObjBody : Nat → List Char → Option (Json × List Char)
  | 0, _ => none
  | fuel + 1, cs =>
    match cs with
    | [] => none
    | c1 :: r =>
      if c1 = '}' then some (.obj [], r)
      else if c1 = '"' then
        match parseStringBody r with
        | none => none
        | some (k, r1) =>
          match skipWs r1 with
          | ':' :: r2 =>
            match parseVal fuel (skipWs r2) with
            | none => none
            | some (v, r3) =>
              match parseObjTail fuel (skipWs r3) with
              | none => none
              | some (ms, r4) => some (.obj ((String.mk k, v) :: ms), r4)
          | _ => none
      else none

/-- Parse an array after `[` and whitespace: `]` or the first element. -/
def parseArrBody : Nat → List Char → Option (Json × List Char)
  | 0, _ => none
  | fuel + 1, cs =>
    match cs with
    | [] => none
    | c1 :: r =>
      if c1 = ']' then some (.arr [], r)
      else
        match parseVal fuel (c1 :: r) with
        | none => none
        | some (v, r1) =>
          match parseArrTail fuel (skipWs r1) with
          | none => none
          | some (vs, r2) => some (.arr (v :: vs), r2)

/-- Parse the rest of an array after a value: `]` ends it, `,` (then optional
whitespace) precedes the next value. -/
def parseArrTail : Nat → List Char → Option (List Json × List Char)
  | 0, _ => none
  | fuel + 1, cs =>
    match cs with
    | ']' :: r => some ([], r)
    | ',' :: r =>
      match parseVal fuel (skipWs r) with
      | none => none
      | some (v, r1) =>
        match parseArrTail fuel (skipWs r1) with
        | none => none
        | some (vs, r2) => some (v :: vs, r2)
    | _ => none

/-- Parse the rest of an object after a member: `}` ends it, `,` must be
followed (after whitespace) by the next quoted key. -/
def parseObjTail : Nat → List Char → Option (List (String × Json) × List Char)
  | 0, _ => none
  | fuel + 1, cs =>
    match cs with
    | '}' :: r => some ([], r)
    | ',' :: r =>
      match skipWs r with
      | '"' :: r1 =>
        match parseStringBody r1 with
        | none => none
        | some (k, r2) =>
          match skipWs r2 with
          | ':' :: r3 =>
            match parseVal fuel (skipWs r3) with
            | none => none
            | some (v, r4) =>
              match parseObjTail fuel (skipWs r4) with
              | none => none
              | some (ms, r5) => some ((String.mk k, v) :: ms, r5)
          | _ => none
      | _ => none
    | _ => none

end

/-- `json.loads`: skip leading whitespace, parse one document, and require
only whitespace to follow. -/
def loads (cs : List Char) : Option Json :=
  match parseVal (cs.length + 1) (skipWs cs) with
  | none => none
  | some (v, rest) => if skipWs rest = [] then some v else none

/-! Round trip of the serializer through the parser. -/

theorem char_toNat_valid (c : Char) :
    c.toNat < 0xd800 ∨ (0xdfff < c.toNat ∧ c.toNat < 0x110000) := by
  have h := c.valid
  simp [UInt32.isValidChar, Nat.isValidChar, Char.toNat] at h ⊢
  exact h

theorem toNat_ofNat_valid (n : Nat) (h : n.isValidChar) :
    (Char.ofNat n).toNat = n := by
  simp only [Char.ofNat, h, dif_pos, Char.ofNatAux, Char.toNat]
  simp [UInt32.toNat, UInt32.ofNat']

theorem hexVal_hexDigitChar (d : Nat) (h : d < 16) :
    hexVal (hexDigitChar d) = some d := by
  interval_cases d <;> decide

theorem hexQuad_digits (n : Nat) (h : n < 0x10000) :
    hexQuad (hexDigitChar (n / 4096 % 16)) (hexDigitChar (n / 256 % 16))
      (hexDigitChar (n / 16 % 16)) (hexDigitChar (n % 16)) = some n := by
  simp only [hexQuad, hexVal_hexDigitChar _ (Nat.mod_lt _ (by norm_num)),
    Option.some.injEq]
  omega

theorem psb_close (rest : List Char) :
    parseStringBody ('"' :: rest) = some ([], rest) := by
  rw [parseStringBody.eq_def]; simp

theorem psb_esc (e ec : Char) (rest : List Char) (he : e ≠ 'u')
    (hs : simpleEsc e = some ec) :
    parseStringBody ('\\' :: e :: rest) =
      (parseStringBody rest).map fun p => (ec :: p.1, p.2) := by
  rw [parseStringBody.eq_def]
  simp only [reduceIte]
  rw [parseEscape.eq_def]
  simp [he, hs]

theorem psb_plain (c : Char) (rest : List Char) (h1 : c ≠ '"')
    (h2 : c ≠ '\\') (h3 : ¬c.toNat < 0x20) :
    parseStringBody (c :: rest) =
      (parseStringBody rest).map fun p => (c :: p.1, p.2) := by
  rw [parseStringBody.eq_def]; simp [h1, h2, h3]

theorem psb_backslash (rest : List Char) :
    parseStringBody ('\\' :: rest) = parseEscape rest := by
  rw [parseStringBody.eq_def]
  simp only [reduceIte]
  rw [if_neg (show ¬(('\\' : Char) = '"') from by decide)]

theorem pe_u_bmp (n : Nat) (rest : List Char) (hlt : n < 0x10000)
    (hno : ¬(0xD800 ≤ n ∧ n ≤ 0xDFFF)) :
    parseEscape ('u' :: (hex4 n ++ rest)) =
      (parseStringBody rest).map fun p => (Char.ofNat n :: p.1, p.2) := by
  rw [parseEscape.eq_def]
  simp only [hex4, List.cons_append, List.nil_append, reduceIte,
    hexQuad_digits n hlt]
  rw [if_neg (show ¬(0xD800 ≤ n ∧ n ≤ 0xDBFF) from
      fun hc => hno ⟨hc.1, by omega⟩),
    if_neg (show ¬(0xDC00 ≤ n ∧ n ≤ 0xDFFF) from
      fun hc => hno ⟨by omega, by omega⟩)]

theorem psb_u_bmp (n : Nat) (rest : List Char) (hlt : n < 0x10000)
    (hno : ¬(0xD800 ≤ n ∧ n ≤ 0xDFFF)) :
    parseStringBody ('\\' :: 'u' :: (hex4 n ++ rest)) =
      (parseStringBody rest).map fun p => (Char.ofNat n :: p.1, p.2) := by
  rw [psb_backslash, pe_u_bmp n rest hlt hno]

theorem pe_u_hi (n : Nat) (rest : List Char) (h1 : n < 0x10000)
    (hhi : 0xD800 ≤ n ∧ n ≤ 0xDBFF) :
    parseEscape ('u' :: (hex4 n ++ rest)) = parseLowSurrogate n rest := by
  rw [parseEscape.eq_def]
  simp only [hex4, List.cons_append, List.nil_append, reduceIte,
    hexQuad_digits _ h1]
  rw [if_pos hhi]

theorem pls_pair (q : Nat) (m : Nat) (rest : List Char) (h1 : m < 0x10000)
    (h2 : 0xDC00 ≤ m) (h3 : m ≤ 0xDFFF) :
    parseLowSurrogate q ('\\' :: 'u' :: (hex4 m ++ rest)) =
      (parseStringBody rest).map fun p =>
        (Char.ofNat (0x10000 + (q - 0xD800) * 0x400 + (m - 0xDC00)) :: p.1, p.2) := by
  rw [parseLowSurrogate.eq_def]
  simp only [hex4, List.cons_append, List.nil_append, reduceIte,
    hexQuad_digits _ h1]
  rw [if_pos (show 0xDC00 ≤ m ∧ m ≤ 0xDFFF from ⟨h2, h3⟩)]
  rw [if_pos (⟨trivial, trivial⟩ : True ∧ True)]

theorem psb_u_pair (n : Nat) (rest : List Char) (hge : 0x10000 ≤ n)
    (hlt : n < 0x110000) :
    parseStringBody ('\\' :: 'u' ::
        (hex4 (0xD800 + (n - 0x10000) / 0x400) ++
          ('\\' :: 'u' :: (hex4 (0xDC00 + (n - 0x10000) % 0x400) ++ rest)))) =
      (parseStringBody rest).map fun p => (Char.ofNat n :: p.1, p.2) := by
  have hmod : (n - 0x10000) % 0x400 < 0x400 :=
    Nat.mod_lt _ (by norm_num)
  rw [psb_backslash]
  rw [pe_u_hi _ _ (by omega) (by constructor <;> omega)]
  rw [pls_pair _ _ _ (by omega) (by omega) (by omega)]
  have hc : 0x10000 + (0xD800 + (n - 0x10000) / 0x400 - 0xD800) * 0x400
      + (0xDC00 + (n - 0x10000) % 0x400 - 0xDC00) = n := by omega
  rw [hc]

theorem parseStringBody_escape (s : List Char) (rest : List Char) :
    parseStringBody (escapeList s ++ ('"' :: rest)) = some (s, rest) := by
  induction s with
  | nil => simpa [escapeList] using psb_close rest
  | cons c s ih =>
    simp only [escapeList, List.append_assoc]
    by_cases h1 : c = '"'
    · subst h1
      rw [show escapeChar '"' = ['\\', '"'] from by decide]
      simp only [List.cons_append, List.nil_append]
      rw [psb_esc '"' '"' _ (by decide) (by decide)]
      simp [ih]
    · by_cases h2 : c = '\\'
      · subst h2
        rw [show escapeChar '\\' = ['\\', '\\'] from by decide]
        simp only [List.cons_append, List.nil_append]
        rw [psb_esc '\\' '\\' _ (by decide) (by decide)]
        simp [ih]
      · by_cases h3 : c = '\x08'
        · subst h3
          rw [show escapeChar '\x08' = ['\\', 'b'] from by decide]
          simp only [List.cons_append, List.nil_append]
          rw [psb_esc 'b' '\x08' _ (by decide) (by decide)]
          simp [ih]
        · by_cases h4 : c = '\t'
          · subst h4
            rw [show escapeChar '\t' = ['\\', 't'] from by decide]
            simp only [List.cons_append, List.nil_append]
            rw [psb_esc 't' '\t' _ (by decide) (by decide)]
            simp [ih]
          · by_cases h5 : c = '\n'
            · subst h5
              rw [show escapeChar '\n' = ['\\', 'n'] from by decide]
              simp only [List.cons_append, List.nil_append]
              rw [psb_esc 'n' '\n' _ (by decide) (by decide)]
              simp [ih]
            · by_cases h6 : c = '\x0c'
              · subst h6
                rw [show escapeChar '\x0c' = ['\\', 'f'] from by decide]
                simp only [List.cons_append, List.nil_append]
                rw [psb_esc 'f' '\x0c' _ (by decide) (by decide)]
                simp [ih]
              · by_cases h7 : c = '\r'
                · subst h7
                  rw [show escapeChar '\r' = ['\\', 'r'] from by decide]
                  simp only [List.cons_append, List.nil_append]
                  rw [psb_esc 'r' '\r' _ (by decide) (by decide)]
                  simp [ih]
                · by_cases h8 : 0x20 ≤ c.toNat ∧ c.toNat ≤ 0x7e
                  · rw [show escapeChar c = [c] from by
                      simp [escapeChar, h1, h2, h3, h4, h5, h6, h7, h8]]
                    simp only [List.singleton_append]
                    rw [psb_plain c _ h1 h2 (by omega)]
                    simp [ih]
                  · by_cases h9 : c.toNat < 0x10000
                    · have hv := char_toNat_valid c
                      rw [show escapeChar c = '\\' :: 'u' :: hex4 c.toNat from by
                        simp [escapeChar, h1, h2, h3, h4, h5, h6, h7, h8, h9]]
                      simp only [List.cons_append, List.append_assoc]
                      rw [psb_u_bmp _ _ h9 (by omega)]
                      simp [ih, Char.ofNat_toNat]
                    · have hv := char_toNat_valid c
                      rw [show escapeChar c =
                          '\\' :: 'u' :: (hex4 (0xD800 + (c.toNat - 0x10000) / 0x400) ++
                            ('\\' :: 'u' ::
                              hex4 (0xDC00 + (c.toNat - 0x10000) % 0x400))) from by
                        simp [escapeChar, h1, h2, h3, h4, h5, h6, h7, h8, h9]]
                      simp only [List.cons_append, List.append_assoc,
                        List.append_nil, List.nil_append]
                      rw [psb_u_pair c.toNat _ (by omega) (by omega)]
                      simp [ih, Char.ofNat_toNat]

/-! Number round trip. -/

theorem decDigitChar_toNat (d : Nat) (h : d < 10) :
    (decDigitChar d).toNat = 48 + d :=
  toNat_ofNat_valid _ (Or.inl (by omega))

theorem isDigitC_decDigitChar (d : Nat) (h : d < 10) :
    isDigitC (decDigitChar d) = true := by
  simp only [isDigitC, decDigitChar_toNat d h, Bool.and_eq_true,
    decide_eq_true_eq]
  omega

theorem digitVal_decDigitChar (d : Nat) (h : d < 10) :
    digitVal (decDigitChar d) = d := by
  simp [digitVal, decDigitChar_toNat d h]

theorem decDigitChar_ne_zero (d : Nat) (h : d < 10) (h0 : d ≠ 0) :
    decDigitChar d ≠ '0' := by
  intro he
  have := congrArg Char.toNat he
  rw [decDigitChar_toNat d h] at this
  have h48 : ('0' : Char).toNat = 48 := rfl
  omega

theorem natDigitsRev_digit (n : Nat) : ∀ c ∈ natDigitsRev n, isDigitC c = true := by
  induction n using Nat.strong_induction_on with
  | _ n ih =>
    rw [natDigitsRev.eq_def]
    by_cases h : n = 0
    · simp [h]
    · simp only [h, reduceIte]
      intro c hc
      rcases List.mem_cons.mp hc with rfl | hc
      · exact isDigitC_decDigitChar _ (Nat.mod_lt _ (by omega))
      · exact ih (n / 10) (Nat.div_lt_self (by omega) (by omega)) c hc

theorem natDigitsRev_ne_nil (n : Nat) (h : n ≠ 0) : natDigitsRev n ≠ [] := by
  rw [natDigitsRev.eq_def]
  simp [h]

theorem natDigitsRev_getLast? (n : Nat) (h : n ≠ 0) :
    ∃ d, (natDigitsRev n).getLast? = some (decDigitChar d) ∧ d < 10 ∧ d ≠ 0 := by
  induction n using Nat.strong_induction_on with
  | _ n ih =>
    rw [natDigitsRev.eq_def]
    simp only [h, reduceIte]
    by_cases h10 : n / 10 = 0
    · have htail : natDigitsRev (n / 10) = [] := by
        rw [h10, natDigitsRev.eq_def]; simp
      rw [htail]
      refine ⟨n % 10, by simp, Nat.mod_lt _ (by omega), ?_⟩
      omega
    · obtain ⟨d, hd, hd10, hd0⟩ :=
        ih (n / 10) (Nat.div_lt_self (by omega) (by omega)) h10
      obtain ⟨c, t, hct⟩ : ∃ c t, natDigitsRev (n / 10) = c :: t := by
        cases hh : natDigitsRev (n / 10) with
        | nil => exact absurd hh (natDigitsRev_ne_nil _ h10)
        | cons c t => exact ⟨c, t, rfl⟩
      refine ⟨d, ?_, hd10, hd0⟩
      rw [hct, List.getLast?_cons_cons, ← hct, hd]

theorem natRepr_digit (n : Nat) : ∀ c ∈ natRepr n, isDigitC c = true := by
  rw [natRepr]
  split
  · intro c hc
    simp only [List.mem_singleton] at hc
    subst hc; decide
  · intro c hc
    exact natDigitsRev_digit n c (List.mem_reverse.mp hc)

theorem natRepr_head (n : Nat) (h : n ≠ 0) :
    ∃ d t, natRepr n = decDigitChar d :: t ∧ d < 10 ∧ d ≠ 0 := by
  obtain ⟨d, hd, hd10, hd0⟩ := natDigitsRev_getLast? n h
  have hh : (natRepr n).head? = some (decDigitChar d) := by
    rw [natRepr]
    simp only [h, reduceIte]
    rw [List.head?_reverse, hd]
  cases ht : natRepr n with
  | nil => rw [ht] at hh; simp at hh
  | cons c t =>
    rw [ht] at hh
    simp only [List.head?_cons, Option.some.injEq] at hh
    exact ⟨d, t, by rw [← hh], hd10, hd0⟩

theorem digitsToNat_rev (n : Nat) :
    digitsToNat (natDigitsRev n).reverse = n := by
  induction n using Nat.strong_induction_on with
  | _ n ih =>
    by_cases h : n = 0
    · subst h
      rw [natDigitsRev.eq_def]
      simp [digitsToNat]
    · rw [natDigitsRev.eq_def]
      simp only [h, reduceIte]
      rw [List.reverse_cons]
      have iht := ih (n / 10) (Nat.div_lt_self (by omega) (by omega))
      unfold digitsToNat at iht ⊢
      rw [List.foldl_append, iht]
      simp only [List.foldl_cons, List.foldl_nil]
      rw [digitVal_decDigitChar _ (Nat.mod_lt _ (by omega))]
      omega

theorem digitsToNat_natRepr (n : Nat) : digitsToNat (natRepr n) = n := by
  rw [natRepr]
  split
  · rename_i h; rw [h]; decide
  · exact digitsToNat_rev n

/-- What may legally follow a serialized number so that the parser stops
exactly at its end: end of input, or a character that is neither a digit nor
a float continuation. -/
def numBoundary : List Char → Prop
  | [] => True
  | c :: _ => isDigitC c = false ∧ c ≠ '.' ∧ c ≠ 'e' ∧ c ≠ 'E'

theorem numTailGuard_boundary (v : Nat) (rest : List Char)
    (hb : numBoundary rest) : numTailGuard v rest = some (v, rest) := by
  cases rest with
  | nil => rfl
  | cons c t =>
    obtain ⟨h1, h2, h3, h4⟩ := hb
    rw [numTailGuard]
    rw [if_neg (by simp [h2, h3, h4])]

/-- The head of `r` (if any) falsifies `p`. -/
def headNot (p : α → Bool) : List α → Prop
  | [] => True
  | c :: _ => p c = false

theorem takeWhile_append_all {p : α → Bool} (l r : List α)
    (hl : ∀ a ∈ l, p a = true)
    (hr : headNot p r) :
    (l ++ r).takeWhile p = l ∧ (l ++ r).dropWhile p = r := by
  induction l with
  | nil =>
    cases r with
    | nil => simp
    | cons c t =>
      simp only [headNot] at hr
      simp [List.takeWhile_cons, List.dropWhile_cons, hr]
  | cons a l ih =>
    have ha : p a = true := hl a (List.mem_cons_self a l)
    have ih' := ih (fun x hx => hl x (List.mem_cons_of_mem a hx))
    simp [List.takeWhile_cons, List.dropWhile_cons, ha, ih'.1, ih'.2]

theorem parseNum_natRepr (n : Nat) (rest : List Char) (hb : numBoundary rest) :
    parseNum (natRepr n ++ rest) = some (n, rest) := by
  by_cases h : n = 0
  · subst h
    rw [show natRepr 0 = ['0'] from rfl]
    rw [show (['0'] ++ rest : List Char) = '0' :: rest from rfl]
    rw [parseNum]
    rw [if_pos rfl]
    exact numTailGuard_boundary 0 rest hb
  · obtain ⟨d, t, heq, hd10, hd0⟩ := natRepr_head n h
    have hbd : headNot isDigitC rest := by
      cases rest with
      | nil => trivial
      | cons c t2 => exact hb.1
    have htw := takeWhile_append_all (p := isDigitC) (natRepr n) rest
      (natRepr_digit n) hbd
    rw [heq, List.cons_append, parseNum]
    rw [if_neg (decDigitChar_ne_zero d hd10 hd0)]
    rw [if_pos (isDigitC_decDigitChar d hd10)]
    have hcs : decDigitChar d :: (t ++ rest) = natRepr n ++ rest := by
      rw [heq, List.cons_append]
    rw [hcs, htw.1, htw.2, digitsToNat_natRepr]
    exact numTailGuard_boundary n rest hb

/-! Structure of serializer output: head characters, whitespace, lengths. -/

theorem char_ne_of_toNat {c c' : Char} (h : c.toNat ≠ c'.toNat) : c ≠ c' :=
  fun he => h (congrArg Char.toNat he)

theorem isDigitC_toNat {c : Char} (h : isDigitC c = true) :
    48 ≤ c.toNat ∧ c.toNat ≤ 57 := by
  simpa [isDigitC] using h

/-- The first character of a serialized value is a digit or one of the seven
token openers. -/
theorem dumpVal_head (v : Json) :
    ∃ c t, dumpVal v = c :: t ∧
      (isDigitC c = true ∨ c ∈ (['{', '[', '"', 't', 'f', 'n', '-'] : List Char)) := by
  cases v with
  | null => exact ⟨'n', _, rfl, Or.inr (by decide)⟩
  | bool b => cases b with
    | true => exact ⟨'t', _, rfl, Or.inr (by decide)⟩
    | false => exact ⟨'f', _, rfl, Or.inr (by decide)⟩
  | num n => cases n with
    | ofNat m =>
      by_cases h : m = 0
      · subst h
        exact ⟨'0', [], by rw [dumpVal]; rfl, Or.inl (by decide)⟩
      · obtain ⟨d, t, heq, hd10, _⟩ := natRepr_head m h
        exact ⟨decDigitChar d, t, by rw [dumpVal]; exact heq,
          Or.inl (isDigitC_decDigitChar d hd10)⟩
    | negSucc m => exact ⟨'-', _, by rw [dumpVal]; rfl, Or.inr (by decide)⟩
  | str s => exact ⟨'"', _, rfl, Or.inr (by decide)⟩
  | arr xs => cases xs with
    | nil => exact ⟨'[', _, rfl, Or.inr (by decide)⟩
    | cons x t => exact ⟨'[', _, rfl, Or.inr (by decide)⟩
  | obj ms => cases ms with
    | nil => exact ⟨'{', _, rfl, Or.inr (by decide)⟩
    | cons kv t =>
      obtain ⟨k, v⟩ := kv
      exact ⟨'{', _, rfl, Or.inr (by decide)⟩

/-- The head of serializer output is not whitespace and not a closing or
separator character. -/
theorem dumpVal_head_props (v : Json) :
    ∃ c t, dumpVal v = c :: t ∧ isJsonWs c = false ∧ c ≠ ']' ∧ c ≠ '}' ∧
      c ≠ ',' ∧ c ≠ ':' := by
  obtain ⟨c, t, heq, hc⟩ := dumpVal_head v
  rcases hc with hd | hm
  · obtain ⟨h1, h2⟩ := isDigitC_toNat hd
    have e1 : (' ' : Char).toNat = 32 := rfl
    have e2 : ('\t' : Char).toNat = 9 := rfl
    have e3 : ('\n' : Char).toNat = 10 := rfl
    have e4 : ('\r' : Char).toNat = 13 := rfl
    have e5 : (']' : Char).toNat = 93 := rfl
    have e6 : ('}' : Char).toNat = 125 := rfl
    have e7 : (',' : Char).toNat = 44 := rfl
    have e8 : (':' : Char).toNat = 58 := rfl
    refine ⟨c, t, heq, ?_, char_ne_of_toNat (by omega),
      char_ne_of_toNat (by omega), char_ne_of_toNat (by omega),
      char_ne_of_toNat (by omega)⟩
    have n1 : c ≠ ' ' := char_ne_of_toNat (by omega)
    have n2 : c ≠ '\t' := char_ne_of_toNat (by omega)
    have n3 : c ≠ '\n' := char_ne_of_toNat (by omega)
    have n4 : c ≠ '\r' := char_ne_of_toNat (by omega)
    simp [isJsonWs, n1, n2, n3, n4]
  · refine ⟨c, t, heq, ?_, ?_, ?_, ?_, ?_⟩ <;> fin_cases hm <;> decide

/-! Whitespace, length and boundary facts used by the round trip. -/

theorem skipWs_cons_not (c : Char) (l : List Char) (h : isJsonWs c = false) :
    skipWs (c :: l) = c :: l := by
  simp [skipWs, List.dropWhile_cons, h]

theorem skipWs_space (l : List Char) : skipWs (' ' :: l) = skipWs l := rfl

theorem skipWs_dump (v : Json) (r : List Char) :
    skipWs (dumpVal v ++ r) = dumpVal v ++ r := by
  obtain ⟨c, t, heq, hws, _⟩ := dumpVal_head_props v
  rw [heq, List.cons_append, skipWs_cons_not _ _ hws]

theorem skipWs_arrTail (xs : List Json) (r : List Char) :
    skipWs (dumpArrTail xs ++ r) = dumpArrTail xs ++ r := by
  cases xs with
  | nil => rw [show dumpArrTail [] = [']'] from rfl]
           exact skipWs_cons_not _ _ (by decide)
  | cons x t =>
    rw [show dumpArrTail (x :: t) = ',' :: ' ' :: (dumpVal x ++ dumpArrTail t)
      from by rw [dumpArrTail]]
    exact skipWs_cons_not _ _ (by decide)

theorem skipWs_objTail (ms : List (String × Json)) (r : List Char) :
    skipWs (dumpObjTail ms ++ r) = dumpObjTail ms ++ r := by
  cases ms with
  | nil => rw [show dumpObjTail [] = ['}'] from rfl]
           exact skipWs_cons_not _ _ (by decide)
  | cons kv t =>
    obtain ⟨k, v⟩ := kv
    rw [show dumpObjTail ((k, v) :: t) =
        ',' :: ' ' :: (quoteStr k ++ (':' :: ' ' :: (dumpVal v ++ dumpObjTail t)))
      from by rw [dumpObjTail]]
    exact skipWs_cons_not _ _ (by decide)

theorem dumpVal_ne_nil (v : Json) : dumpVal v ≠ [] := by
  obtain ⟨c, t, heq, _⟩ := dumpVal_head_props v
  rw [heq]; simp

theorem dumpVal_len_pos (v : Json) : 1 ≤ (dumpVal v).length := by
  obtain ⟨c, t, heq, _⟩ := dumpVal_head_props v
  rw [heq]; simp

theorem dumpArrTail_len_pos (xs : List Json) : 1 ≤ (dumpArrTail xs).length := by
  cases xs with
  | nil => rw [show dumpArrTail [] = [']'] from rfl]; simp
  | cons x t =>
    rw [show dumpArrTail (x :: t) = ',' :: ' ' :: (dumpVal x ++ dumpArrTail t)
      from by rw [dumpArrTail]]
    simp

theorem dumpObjTail_len_pos (ms : List (String × Json)) :
    1 ≤ (dumpObjTail ms).length := by
  cases ms with
  | nil => rw [show dumpObjTail [] = ['}'] from rfl]; simp
  | cons kv t =>
    obtain ⟨k, v⟩ := kv
    rw [show dumpObjTail ((k, v) :: t) =
        ',' :: ' ' :: (quoteStr k ++ (':' :: ' ' :: (dumpVal v ++ dumpObjTail t)))
      from by rw [dumpObjTail]]
    simp

theorem numBoundary_arrTail (xs : List Json) (r : List Char) :
    numBoundary (dumpArrTail xs ++ r) := by
  cases xs with
  | nil => rw [show dumpArrTail [] = [']'] from rfl]
           exact ⟨by decide, by decide, by decide, by decide⟩
  | cons x t =>
    rw [show dumpArrTail (x :: t) = ',' :: ' ' :: (dumpVal x ++ dumpArrTail t)
      from by rw [dumpArrTail]]
    exact ⟨by decide, by decide, by decide, by decide⟩

theorem numBoundary_objTail (ms : List (String × Json)) (r : List Char) :
    numBoundary (dumpObjTail ms ++ r) := by
  cases ms with
  | nil => rw [show dumpObjTail [] = ['}'] from rfl]
           exact ⟨by decide, by decide, by decide, by decide⟩
  | cons kv t =>
    obtain ⟨k, v⟩ := kv
    rw [show dumpObjTail ((k, v) :: t) =
        ',' :: ' ' :: (quoteStr k ++ (':' :: ' ' :: (dumpVal v ++ dumpObjTail t)))
      from by rw [dumpObjTail]]
    exact ⟨by decide, by decide, by decide, by decide⟩

/-- Nested induction principle for `Json`. -/
def Json.indOn {P : Json → Prop}
    (hnull : P .null) (hbool : ∀ b, P (.bool b)) (hnum : ∀ n, P (.num n))
    (hstr : ∀ s, P (.str s))
    (harr : ∀ xs, (∀ x ∈ xs, P x) → P (.arr xs))
    (hobj : ∀ ms, (∀ kv ∈ ms, P kv.2) → P (.obj ms)) :
    ∀ v, P v
  | .null => hnull
  | .bool b => hbool b
  | .num n => hnum n
  | .str s => hstr s
  | .arr xs => harr xs (fun x hx =>
      Json.indOn hnull hbool hnum hstr harr hobj x)
  | .obj ms => hobj ms (fun kv hkv =>
      Json.indOn hnull hbool hnum hstr harr hobj kv.2)
decreasing_by
  · have := List.sizeOf_lt_of_mem hx
    simp only [Json.arr.sizeOf_spec]
    omega
  · have h1 := List.sizeOf_lt_of_mem hkv
    obtain ⟨a, b⟩ := kv
    simp only [Json.obj.sizeOf_spec, Prod.mk.sizeOf_spec] at h1 ⊢
    omega

/-! Step lemmas for the value parser. -/

theorem pv_open_obj (f : Nat) (r : List Char) :
    parseVal (f + 1) ('{' :: r) = parseObjBody f (skipWs r) := by
  rw [parseVal.eq_def]
  simp only [reduceIte]

theorem pv_open_arr (f : Nat) (r : List Char) :
    parseVal (f + 1) ('[' :: r) = parseArrBody f (skipWs r) := by
  rw [parseVal.eq_def]
  simp only [reduceIte]
  rw [if_neg (show ¬(('[' : Char) = '{') from by decide)]

theorem pv_quote (f : Nat) (s : String) (rest : List Char) :
    parseVal (f + 1) (quoteStr s ++ rest) = some (.str s, rest) := by
  rw [show quoteStr s ++ rest = '"' :: (escapeList s.data ++ ('"' :: rest))
    from by simp [quoteStr]]
  rw [parseVal.eq_def]
  simp only [reduceIte, parseStringBody_escape]
  rw [if_neg (show ¬(('"' : Char) = '{') from by decide),
    if_neg (show ¬(('"' : Char) = '[') from by decide)]

theorem pv_true (f : Nat) (rest : List Char) :
    parseVal (f + 1) ('t' :: 'r' :: 'u' :: 'e' :: rest) =
      some (.bool true, rest) := by
  rw [parseVal.eq_def]
  simp only [reduceIte]
  rfl

theorem pv_false (f : Nat) (rest : List Char) :
    parseVal (f + 1) ('f' :: 'a' :: 'l' :: 's' :: 'e' :: rest) =
      some (.bool false, rest) := by
  rw [parseVal.eq_def]
  simp only [reduceIte]
  rfl

theorem pv_nullTok (f : Nat) (rest : List Char) :
    parseVal (f + 1) ('n' :: 'u' :: 'l' :: 'l' :: rest) =
      some (.null, rest) := by
  rw [parseVal.eq_def]
  simp only [reduceIte]
  rfl

theorem pv_neg (f : Nat) (m : Nat) (rest : List Char) (hb : numBoundary rest) :
    parseVal (f + 1) ('-' :: (natRepr (m + 1) ++ rest)) =
      some (.num (Int.negSucc m), rest) := by
  rw [parseVal.eq_def]
  simp only [reduceIte, parseNum_natRepr _ _ hb]
  have : (-(((m + 1 : Nat)) : Int)) = Int.negSucc m := by
    rw [Int.negSucc_eq]
    push_cast
    ring
  rw [this]
  rw [if_neg (show ¬(('-' : Char) = '{') from by decide),
    if_neg (show ¬(('-' : Char) = '[') from by decide),
    if_neg (show ¬(('-' : Char) = '"') from by decide),
    if_neg (show ¬(('-' : Char) = 't') from by decide),
    if_neg (show ¬(('-' : Char) = 'f') from by decide),
    if_neg (show ¬(('-' : Char) = 'n') from by decide)]

theorem pv_pos (f : Nat) (n : Nat) (rest : List Char) (hb : numBoundary rest) :
    parseVal (f + 1) (natRepr n ++ rest) = some (.num (n : Int), rest) := by
  obtain ⟨c, t, heq, hdig⟩ : ∃ c t, natRepr n = c :: t ∧ isDigitC c = true := by
    by_cases h : n = 0
    · exact ⟨'0', [], by rw [h]; rfl, by decide⟩
    · obtain ⟨d, t, heq, hd10, _⟩ := natRepr_head n h
      exact ⟨decDigitChar d, t, heq, isDigitC_decDigitChar d hd10⟩
  obtain ⟨h1, h2⟩ := isDigitC_toNat hdig
  have eA : ('{' : Char).toNat = 123 := rfl
  have eB : ('[' : Char).toNat = 91 := rfl
  have eC : ('"' : Char).toNat = 34 := rfl
  have eD : ('t' : Char).toNat = 116 := rfl
  have eE : ('f' : Char).toNat = 102 := rfl
  have eF : ('n' : Char).toNat = 110 := rfl
  have eG : ('-' : Char).toNat = 45 := rfl
  rw [heq, List.cons_append, parseVal.eq_def]
  simp only []
  rw [if_neg (char_ne_of_toNat (by omega)),
    if_neg (char_ne_of_toNat (by omega)),
    if_neg (char_ne_of_toNat (by omega)),
    if_neg (char_ne_of_toNat (by omega)),
    if_neg (char_ne_of_toNat (by omega)),
    if_neg (char_ne_of_toNat (by omega)),
    if_neg (char_ne_of_toNat (by omega)),
    if_pos hdig]
  rw [show c :: (t ++ rest) = natRepr n ++ rest from by rw [heq, List.cons_append]]
  rw [parseNum_natRepr _ _ hb]

/-! Round trip of the full value grammar. -/

/-- Round-trip property of one value at every sufficient fuel. -/
def RTv (v : Json) : Prop :=
  ∀ fuel rest, (dumpVal v).length ≤ fuel → numBoundary rest →
    parseVal fuel (dumpVal v ++ rest) = some (v, rest)

theorem parseArrTail_dump (xs : List Json) (hIH : ∀ x ∈ xs, RTv x) :
    ∀ fuel rest, (dumpArrTail xs).length ≤ fuel → numBoundary rest →
      parseArrTail fuel (dumpArrTail xs ++ rest) = some (xs, rest) := by
  induction xs with
  | nil =>
    intro fuel rest hf hb
    rw [show dumpArrTail [] = [']'] from rfl] at hf ⊢
    cases fuel with
    | zero => simp at hf
    | succ f =>
      rw [parseArrTail.eq_def]
      simp only [List.cons_append, List.nil_append]
  | cons x t ih =>
    intro fuel rest hf hb
    have hlx := dumpVal_len_pos x
    have hlt := dumpArrTail_len_pos t
    rw [show dumpArrTail (x :: t) = ',' :: ' ' :: (dumpVal x ++ dumpArrTail t)
      from by rw [dumpArrTail]] at hf ⊢
    simp only [List.length_cons, List.length_append] at hf
    cases fuel with
    | zero => omega
    | succ f =>
      rw [parseArrTail.eq_def]
      simp only [List.cons_append, List.append_assoc]
      rw [skipWs_space, skipWs_dump]
      rw [hIH x (List.mem_cons_self x t) f _ (by omega)
        (numBoundary_arrTail t rest)]
      simp only []
      rw [skipWs_arrTail]
      rw [ih (fun y hy => hIH y (List.mem_cons_of_mem x hy)) f rest (by omega) hb]

theorem parseObjTail_dump (ms : List (String × Json))
    (hIH : ∀ kv ∈ ms, RTv kv.2) :
    ∀ fuel rest, (dumpObjTail ms).length ≤ fuel → numBoundary rest →
      parseObjTail fuel (dumpObjTail ms ++ rest) = some (ms, rest) := by
  induction ms with
  | nil =>
    intro fuel rest hf hb
    rw [show dumpObjTail [] = ['}'] from rfl] at hf ⊢
    cases fuel with
    | zero => simp at hf
    | succ f =>
      rw [parseObjTail.eq_def]
      simp only [List.cons_append, List.nil_append]
  | cons kv t ih =>
    obtain ⟨k, v⟩ := kv
    intro fuel rest hf hb
    have hlv := dumpVal_len_pos v
    have hlt := dumpObjTail_len_pos t
    rw [show dumpObjTail ((k, v) :: t) =
        ',' :: ' ' :: (quoteStr k ++ (':' :: ' ' :: (dumpVal v ++ dumpObjTail t)))
      from by rw [dumpObjTail]] at hf ⊢
    simp only [List.length_cons, List.length_append, quoteStr] at hf
    cases fuel with
    | zero => omega
    | succ f =>
      rw [parseObjTail.eq_def]
      simp only [List.cons_append, List.append_assoc]
      rw [skipWs_space]
      rw [show quoteStr k ++ (':' :: ' ' :: (dumpVal v ++ (dumpObjTail t ++ rest)))
          = '"' :: (escapeList k.data ++
              ('"' :: (':' :: ' ' :: (dumpVal v ++ (dumpObjTail t ++ rest)))))
        from by simp [quoteStr]]
      rw [skipWs_cons_not _ _ (by decide)]
      simp only [parseStringBody_escape]
      rw [skipWs_cons_not _ _ (by decide)]
      simp only []
      rw [skipWs_space, skipWs_dump]
      have hkv : RTv v := hIH (k, v) (List.mem_cons_self _ t)
      rw [hkv f _ (by omega) (numBoundary_objTail t rest)]
      simp only []
      rw [skipWs_objTail]
      rw [ih (fun y hy => hIH y (List.mem_cons_of_mem (k, v) hy)) f rest
        (by omega) hb]

theorem parseVal_dump : ∀ v, RTv v := by
  refine Json.indOn ?_ ?_ ?_ ?_ ?_ ?_
  · intro fuel rest hf hb
    rw [show dumpVal .null = ['n', 'u', 'l', 'l'] from rfl] at hf ⊢
    cases fuel with
    | zero => simp at hf
    | succ f => exact pv_nullTok f rest
  · intro b fuel rest hf hb
    cases b with
    | true =>
      rw [show dumpVal (.bool true) = ['t', 'r', 'u', 'e'] from rfl] at hf ⊢
      cases fuel with
      | zero => simp at hf
      | succ f => exact pv_true f rest
    | false =>
      rw [show dumpVal (.bool false) = ['f', 'a', 'l', 's', 'e'] from rfl]
        at hf ⊢
      cases fuel with
      | zero => simp at hf
      | succ f => exact pv_false f rest
  · intro n fuel rest hf hb
    cases n with
    | ofNat m =>
      rw [show dumpVal (.num (Int.ofNat m)) = natRepr m from by rw [dumpVal]; rfl]
        at hf ⊢
      have := natRepr_digit m
      cases fuel with
      | zero =>
        have : natRepr m ≠ [] := by
          by_cases h : m = 0
          · rw [h]; decide
          · obtain ⟨d, t, heq, _⟩ := natRepr_head m h
            rw [heq]; simp
        cases hm : natRepr m with
        | nil => exact absurd hm this
        | cons c t => rw [hm] at hf; simp at hf
      | succ f => exact pv_pos f m rest hb
    | negSucc m =>
      rw [show dumpVal (.num (Int.negSucc m)) = '-' :: natRepr (m + 1)
        from by rw [dumpVal]; rfl] at hf ⊢
      cases fuel with
      | zero => simp at hf
      | succ f =>
        rw [List.cons_append]
        exact pv_neg f m rest hb
  · intro s fuel rest hf hb
    rw [show dumpVal (.str s) = quoteStr s from by rw [dumpVal]] at hf ⊢
    have : 1 ≤ (quoteStr s).length := by simp [quoteStr]
    cases fuel with
    | zero => omega
    | succ f => exact pv_quote f s rest
  · intro xs hIH fuel rest hf hb
    cases xs with
    | nil =>
      rw [show dumpVal (.arr []) = ['[', ']'] from rfl] at hf ⊢
      cases fuel with
      | zero => simp at hf
      | succ f =>
        simp only [List.length_cons, List.length_nil] at hf
        rw [show (['[', ']'] : List Char) ++ rest = '[' :: (']' :: rest)
          from rfl]
        rw [pv_open_arr, skipWs_cons_not _ _ (by decide)]
        cases f with
        | zero => omega
        | succ f2 =>
          rw [parseArrBody.eq_def]
          simp only [reduceIte]
    | cons x t =>
      have hlx := dumpVal_len_pos x
      have hlt := dumpArrTail_len_pos t
      rw [show dumpVal (.arr (x :: t)) = '[' :: (dumpVal x ++ dumpArrTail t)
        from by rw [dumpVal]] at hf ⊢
      simp only [List.length_cons, List.length_append] at hf
      cases fuel with
      | zero => omega
      | succ f =>
        rw [List.cons_append, pv_open_arr, List.append_assoc, skipWs_dump]
        obtain ⟨c, tx, hcx, hws, hrb, _, _, _⟩ := dumpVal_head_props x
        cases f with
        | zero => omega
        | succ f2 =>
          rw [parseArrBody.eq_def]
          rw [show dumpVal x ++ (dumpArrTail t ++ rest)
            = c :: (tx ++ (dumpArrTail t ++ rest)) from by
              rw [hcx, List.cons_append]]
          simp only []
          rw [if_neg hrb]
          rw [show c :: (tx ++ (dumpArrTail t ++ rest))
            = dumpVal x ++ (dumpArrTail t ++ rest) from by
              rw [hcx, List.cons_append]]
          rw [hIH x (List.mem_cons_self x t) f2 _ (by omega)
            (numBoundary_arrTail t rest)]
          simp only []
          rw [skipWs_arrTail]
          rw [parseArrTail_dump t
            (fun y hy => hIH y (List.mem_cons_of_mem x hy)) f2 rest
            (by omega) hb]
  · intro ms hIH fuel rest hf hb
    cases ms with
    | nil =>
      rw [show dumpVal (.obj []) = ['{', '}'] from rfl] at hf ⊢
      cases fuel with
      | zero => simp at hf
      | succ f =>
        simp only [List.length_cons, List.length_nil] at hf
        rw [show (['{', '}'] : List Char) ++ rest = '{' :: ('}' :: rest)
          from rfl]
        rw [pv_open_obj, skipWs_cons_not _ _ (by decide)]
        cases f with
        | zero => omega
        | succ f2 =>
          rw [parseObjBody.eq_def]
          simp only [reduceIte]
    | cons kv t =>
      obtain ⟨k, v⟩ := kv
      have hlv := dumpVal_len_pos v
      have hlt := dumpObjTail_len_pos t
      rw [show dumpVal (.obj ((k, v) :: t))
          = '{' :: (quoteStr k ++ (':' :: ' ' :: (dumpVal v ++ dumpObjTail t)))
        from by rw [dumpVal]] at hf ⊢
      simp only [List.length_cons, List.length_append, quoteStr] at hf
      cases fuel with
      | zero => omega
      | succ f =>
        rw [List.cons_append, pv_open_obj]
        rw [show quoteStr k ++ (':' :: ' ' :: (dumpVal v ++ dumpObjTail t))
              ++ rest
            = '"' :: (escapeList k.data ++
                ('"' :: (':' :: ' ' :: (dumpVal v ++ (dumpObjTail t ++ rest)))))
          from by simp [quoteStr]]
        rw [skipWs_cons_not _ _ (by decide)]
        cases f with
        | zero => omega
        | succ f2 =>
          rw [parseObjBody.eq_def]
          simp only [reduceIte, parseStringBody_escape]
          rw [if_neg (show ¬(('"' : Char) = '}') from by decide)]
          rw [skipWs_cons_not _ _ (by decide)]
          simp only []
          rw [skipWs_space, skipWs_dump]
          have hkv : RTv v := hIH (k, v) (List.mem_cons_self _ t)
          rw [hkv f2 _ (by omega) (numBoundary_objTail t rest)]
          simp only []
          rw [skipWs_objTail]
          rw [parseObjTail_dump t
            (fun y hy => hIH y (List.mem_cons_of_mem (k, v) hy)) f2 rest
            (by omega) hb]

/-! `loads`-level consequences of the round trip. -/

theorem numBoundary_of_ws (trail : List Char)
    (h : ∀ c ∈ trail, isJsonWs c = true) : numBoundary trail := by
  cases trail with
  | nil => trivial
  | cons c t =>
    have hc := h c (List.mem_cons_self c t)
    simp only [isJsonWs, Bool.or_eq_true, decide_eq_true_eq] at hc
    rcases hc with ((rfl | rfl) | rfl) | rfl <;>
      exact ⟨by decide, by decide, by decide, by decide⟩

theorem loads_dump_trail (v : Json) (trail : List Char)
    (htrail : ∀ c ∈ trail, isJsonWs c = true) :
    loads (dumpVal v ++ trail) = some v := by
  simp only [loads]
  rw [skipWs_dump]
  rw [parseVal_dump v _ _ (by simp [List.length_append]; omega)
    (numBoundary_of_ws trail htrail)]
  have hskip : skipWs trail = [] := by
    simp only [skipWs, List.dropWhile_eq_nil_iff]
    exact fun c hc => htrail c hc
  simp [hskip]

theorem skipWs_dump_nil (v : Json) : skipWs (dumpVal v) = dumpVal v := by
  have := skipWs_dump v []
  simpa using this

theorem numBoundary_cons (c : Char) (l : List Char) (h1 : isDigitC c = false)
    (h2 : c ≠ '.') (h3 : c ≠ 'e') (h4 : c ≠ 'E') : numBoundary (c :: l) :=
  ⟨h1, h2, h3, h4⟩

theorem loads_two_docs (v1 v2 : Json) :
    loads (dumpVal v1 ++ ('\n' :: dumpVal v2)) = none := by
  simp only [loads]
  rw [skipWs_dump]
  rw [parseVal_dump v1 _ _ (by simp [List.length_append]; omega)
    (numBoundary_cons '\n' (dumpVal v2) (by decide) (by decide) (by decide)
      (by decide))]
  simp only []
  rw [show skipWs ('\n' :: dumpVal v2) = skipWs (dumpVal v2) from rfl,
    skipWs_dump_nil]
  rw [if_neg (dumpVal_ne_nil v2)]

/-! The serializer never emits a newline, and its output neither starts nor
ends with (Python) whitespace. -/

/-- `str.strip()` whitespace (the ASCII fragment, which is all that can occur
around serializer output). -/
def pyWsChar (c : Char) : Bool :=
  c = ' ' || c = '\t' || c = '\n' || c = '\r' || c = '\x0b' || c = '\x0c'

/-- `str.strip()`: drop whitespace from both ends. -/
def pyStrip (cs : List Char) : List Char :=
  (((cs.dropWhile pyWsChar).reverse).dropWhile pyWsChar).reverse

theorem hexDigitChar_props (d : Nat) (h : d < 16) :
    hexDigitChar d ≠ '\n' ∧ pyWsChar (hexDigitChar d) = false := by
  interval_cases d <;> exact ⟨by decide, by decide⟩

theorem hex4_ne_nl (n : Nat) : ∀ x ∈ hex4 n, x ≠ '\n' := by
  intro x hx
  simp only [hex4, List.mem_cons, List.not_mem_nil, or_false] at hx
  rcases hx with rfl | rfl | rfl | rfl <;>
    exact (hexDigitChar_props _ (Nat.mod_lt _ (by norm_num))).1

theorem escapeChar_ne_nl (c : Char) : ∀ x ∈ escapeChar c, x ≠ '\n' := by
  intro x hx
  by_cases h1 : c = '"'
  · rw [h1] at hx; simp [escapeChar] at hx
    rcases hx with rfl | rfl <;> decide
  · by_cases h2 : c = '\\'
    · rw [h2] at hx; simp [escapeChar] at hx
      rcases hx with rfl | rfl <;> decide
    · by_cases h3 : c = '\x08'
      · rw [h3] at hx; simp [escapeChar] at hx
        rcases hx with rfl | rfl <;> decide
      · by_cases h4 : c = '\t'
        · rw [h4] at hx; simp [escapeChar] at hx
          rcases hx with rfl | rfl <;> decide
        · by_cases h5 : c = '\n'
          · rw [h5] at hx; simp [escapeChar] at hx
            rcases hx with rfl | rfl <;> decide
          · by_cases h6 : c = '\x0c'
            · rw [h6] at hx; simp [escapeChar] at hx
              rcases hx with rfl | rfl <;> decide
            · by_cases h7 : c = '\r'
              · rw [h7] at hx; simp [escapeChar] at hx
                rcases hx with rfl | rfl <;> decide
              · by_cases h8 : 0x20 ≤ c.toNat ∧ c.toNat ≤ 0x7e
                · rw [show escapeChar c = [c] from by
                    simp [escapeChar, h1, h2, h3, h4, h5, h6, h7, h8]] at hx
                  simp at hx
                  subst hx
                  obtain ⟨h8a, h8b⟩ := h8
                  have e0 : ('\n' : Char).toNat = 10 := rfl
                  exact char_ne_of_toNat (by omega)
                · by_cases h9 : c.toNat < 0x10000
                  · rw [show escapeChar c = '\\' :: 'u' :: hex4 c.toNat from by
                      simp [escapeChar, h1, h2, h3, h4, h5, h6, h7, h8, h9]] at hx
                    rcases List.mem_cons.mp hx with rfl | hx2
                    · decide
                    rcases List.mem_cons.mp hx2 with rfl | hx3
                    · decide
                    exact hex4_ne_nl _ x hx3
                  · rw [show escapeChar c =
                        '\\' :: 'u' :: (hex4 (0xD800 + (c.toNat - 0x10000) / 0x400) ++
                          ('\\' :: 'u' ::
                            hex4 (0xDC00 + (c.toNat - 0x10000) % 0x400))) from by
                      simp [escapeChar, h1, h2, h3, h4, h5, h6, h7, h8, h9]] at hx
                    rcases List.mem_cons.mp hx with rfl | hx2
                    · decide
                    rcases List.mem_cons.mp hx2 with rfl | hx3
                    · decide
                    rcases List.mem_append.mp hx3 with h | h
                    · exact hex4_ne_nl _ x h
                    rcases List.mem_cons.mp h with rfl | hy2
                    · decide
                    rcases List.mem_cons.mp hy2 with rfl | hy3
                    · decide
                    exact hex4_ne_nl _ x hy3

theorem escapeList_ne_nl (s : List Char) : ∀ x ∈ escapeList s, x ≠ '\n' := by
  induction s with
  | nil => intro x hx; simp [escapeList] at hx
  | cons c t ih =>
    intro x hx
    simp only [escapeList, List.mem_append] at hx
    rcases hx with h | h
    · exact escapeChar_ne_nl c x h
    · exact ih x h

theorem natRepr_ne_nl (n : Nat) : ∀ x ∈ natRepr n, x ≠ '\n' := by
  intro x hx
  have := natRepr_digit n x hx
  obtain ⟨h1, h2⟩ := isDigitC_toNat this
  have e0 : ('\n' : Char).toNat = 10 := rfl
  exact char_ne_of_toNat (by omega)

theorem quoteStr_ne_nl (k : String) : ∀ x ∈ quoteStr k, x ≠ '\n' := by
  intro x hx
  rcases List.mem_cons.mp hx with rfl | hx2
  · decide
  rcases List.mem_append.mp hx2 with h | h
  · exact escapeList_ne_nl k.data x h
  · rcases List.mem_cons.mp h with rfl | h2
    · decide
    · simp at h2

theorem dumpArrTail_ne_nl (xs : List Json)
    (hIH : ∀ x ∈ xs, ∀ ch ∈ dumpVal x, ch ≠ '\n') :
    ∀ ch ∈ dumpArrTail xs, ch ≠ '\n' := by
  induction xs with
  | nil =>
    intro ch hch
    rw [show dumpArrTail [] = ([']'] : List Char) from rfl] at hch
    simp at hch; subst hch; decide
  | cons x t ih =>
    intro ch hch
    rw [show dumpArrTail (x :: t) = ',' :: ' ' :: (dumpVal x ++ dumpArrTail t)
      from by rw [dumpArrTail]] at hch
    simp only [List.mem_cons, List.mem_append] at hch
    rcases hch with rfl | rfl | h | h
    · decide
    · decide
    · exact hIH x (List.mem_cons_self x t) ch h
    · exact ih (fun y hy => hIH y (List.mem_cons_of_mem x hy)) ch h

theorem dumpObjTail_ne_nl (ms : List (String × Json))
    (hIH : ∀ kv ∈ ms, ∀ ch ∈ dumpVal kv.2, ch ≠ '\n') :
    ∀ ch ∈ dumpObjTail ms, ch ≠ '\n' := by
  induction ms with
  | nil =>
    intro ch hch
    rw [show dumpObjTail [] = (['}'] : List Char) from rfl] at hch
    simp at hch; subst hch; decide
  | cons kv t ih =>
    obtain ⟨k, v⟩ := kv
    intro ch hch
    rw [show dumpObjTail ((k, v) :: t) =
        ',' :: ' ' :: (quoteStr k ++ (':' :: ' ' :: (dumpVal v ++ dumpObjTail t)))
      from by rw [dumpObjTail]] at hch
    rcases List.mem_cons.mp hch with rfl | hch2
    · decide
    rcases List.mem_cons.mp hch2 with rfl | hch3
    · decide
    rcases List.mem_append.mp hch3 with h | h
    · exact quoteStr_ne_nl k ch h
    rcases List.mem_cons.mp h with rfl | h2
    · decide
    rcases List.mem_cons.mp h2 with rfl | h3
    · decide
    rcases List.mem_append.mp h3 with h4 | h4
    · exact hIH (k, v) (List.mem_cons_self _ t) ch h4
    · exact ih (fun y hy => hIH y (List.mem_cons_of_mem (k, v) hy)) ch h4

theorem dumpVal_ne_nl : ∀ v : Json, ∀ ch ∈ dumpVal v, ch ≠ '\n' := by
  refine Json.indOn ?_ ?_ ?_ ?_ ?_ ?_
  · intro ch hch
    rw [show dumpVal .null = (['n', 'u', 'l', 'l'] : List Char) from rfl] at hch
    simp at hch
    rcases hch with rfl | rfl | rfl <;> decide
  · intro b ch hch
    cases b with
    | true =>
      rw [show dumpVal (.bool true) = (['t', 'r', 'u', 'e'] : List Char)
        from rfl] at hch
      simp at hch
      rcases hch with rfl | rfl | rfl | rfl <;> decide
    | false =>
      rw [show dumpVal (.bool false) = (['f', 'a', 'l', 's', 'e'] : List Char)
        from rfl] at hch
      simp at hch
      rcases hch with rfl | rfl | rfl | rfl | rfl <;> decide
  · intro n ch hch
    cases n with
    | ofNat m =>
      rw [show dumpVal (.num (Int.ofNat m)) = natRepr m from by
        rw [dumpVal]; rfl] at hch
      exact natRepr_ne_nl m ch hch
    | negSucc m =>
      rw [show dumpVal (.num (Int.negSucc m)) = '-' :: natRepr (m + 1) from by
        rw [dumpVal]; rfl] at hch
      rcases List.mem_cons.mp hch with rfl | h
      · decide
      · exact natRepr_ne_nl (m + 1) ch h
  · intro str2 ch hch
    rw [show dumpVal (.str str2) = quoteStr str2 from by rw [dumpVal]] at hch
    exact quoteStr_ne_nl str2 ch hch
  · intro xs hIH ch hch
    cases xs with
    | nil =>
      rw [show dumpVal (.arr []) = (['[', ']'] : List Char) from rfl] at hch
      simp at hch
      rcases hch with rfl | rfl <;> decide
    | cons x t =>
      rw [show dumpVal (.arr (x :: t)) = '[' :: (dumpVal x ++ dumpArrTail t)
        from by rw [dumpVal]] at hch
      simp only [List.mem_cons, List.mem_append] at hch
      rcases hch with rfl | h | h
      · decide
      · exact hIH x (List.mem_cons_self x t) ch h
      · exact dumpArrTail_ne_nl t
          (fun y hy => hIH y (List.mem_cons_of_mem x hy)) ch h
  · intro ms hIH ch hch
    cases ms with
    | nil =>
      rw [show dumpVal (.obj []) = (['{', '}'] : List Char) from rfl] at hch
      simp at hch
      rcases hch with rfl | rfl <;> decide
    | cons kv t =>
      obtain ⟨k, v⟩ := kv
      rw [show dumpVal (.obj ((k, v) :: t)) =
          '{' :: (quoteStr k ++ (':' :: ' ' :: (dumpVal v ++ dumpObjTail t)))
        from by rw [dumpVal]] at hch
      rcases List.mem_cons.mp hch with rfl | hch2
      · decide
      rcases List.mem_append.mp hch2 with h | h
      · exact quoteStr_ne_nl k ch h
      rcases List.mem_cons.mp h with rfl | h2
      · decide
      rcases List.mem_cons.mp h2 with rfl | h3
      · decide
      rcases List.mem_append.mp h3 with h4 | h4
      · exact hIH (k, v) (List.mem_cons_self _ t) ch h4
      · exact dumpObjTail_ne_nl t
          (fun y hy => hIH y (List.mem_cons_of_mem (k, v) hy)) ch h4

/-! Last characters of serializer output, and `str.strip()`. -/

theorem getLast?_cons_ne {α : Type} (a : α) (l : List α) (h : l ≠ []) :
    (a :: l).getLast? = l.getLast? := by
  cases l with
  | nil => exact absurd rfl h
  | cons b t => exact List.getLast?_cons_cons

theorem dumpArrTail_last (xs : List Json) :
    (dumpArrTail xs).getLast? = some ']' := by
  induction xs with
  | nil => rw [show dumpArrTail [] = ([']'] : List Char) from rfl]; rfl
  | cons x t ih =>
    rw [show dumpArrTail (x :: t) = ',' :: ' ' :: (dumpVal x ++ dumpArrTail t)
      from by rw [dumpArrTail]]
    have hne : dumpVal x ++ dumpArrTail t ≠ [] := by
      simp [dumpVal_ne_nil x]
    rw [List.getLast?_cons_cons, getLast?_cons_ne _ _ hne]
    rw [List.getLast?_append_of_ne_nil _ (by
      cases ht : dumpArrTail t with
      | nil => rw [ht] at ih; simp at ih
      | cons a b => simp)]
    exact ih

theorem dumpObjTail_last (ms : List (String × Json)) :
    (dumpObjTail ms).getLast? = some '}' := by
  induction ms with
  | nil => rw [show dumpObjTail [] = (['}'] : List Char) from rfl]; rfl
  | cons kv t ih =>
    obtain ⟨k, v⟩ := kv
    rw [show dumpObjTail ((k, v) :: t) =
        ',' :: ' ' :: (quoteStr k ++ (':' :: ' ' :: (dumpVal v ++ dumpObjTail t)))
      from by rw [dumpObjTail]]
    have hto : dumpObjTail t ≠ [] := by
      cases ht : dumpObjTail t with
      | nil => rw [ht] at ih; simp at ih
      | cons a b => simp
    have h1 : dumpVal v ++ dumpObjTail t ≠ [] := by simp [hto]
    have h2 : (':' :: ' ' :: (dumpVal v ++ dumpObjTail t) : List Char) ≠ [] := by
      simp
    have h3 : quoteStr k ++ (':' :: ' ' :: (dumpVal v ++ dumpObjTail t)) ≠ [] := by
      simp [h2]
    rw [List.getLast?_cons_cons, getLast?_cons_ne _ _ h3,
      List.getLast?_append_of_ne_nil _ h2, List.getLast?_cons_cons,
      getLast?_cons_ne _ _ h1,
      List.getLast?_append_of_ne_nil _ hto]
    exact ih

theorem dumpVal_last (v : Json) :
    ∃ c, (dumpVal v).getLast? = some c ∧ pyWsChar c = false := by
  cases v with
  | null => exact ⟨'l', rfl, by decide⟩
  | bool b => cases b with
    | true => exact ⟨'e', rfl, by decide⟩
    | false => exact ⟨'e', rfl, by decide⟩
  | num n =>
    have hdig : ∀ m : Nat, ∃ c, (natRepr m).getLast? = some c ∧
        pyWsChar c = false := by
      intro m
      have hne : natRepr m ≠ [] := by
        by_cases h : m = 0
        · rw [h]; decide
        · obtain ⟨d, t, heq, _⟩ := natRepr_head m h
          rw [heq]; simp
      cases hl : (natRepr m).getLast? with
      | none => rw [List.getLast?_eq_none_iff] at hl; exact absurd hl hne
      | some c =>
        refine ⟨c, rfl, ?_⟩
        have hmem : c ∈ natRepr m := List.mem_of_mem_getLast? (by rw [hl]; rfl)
        obtain ⟨ha, hb⟩ := isDigitC_toNat (natRepr_digit m c hmem)
        have e1 : (' ' : Char).toNat = 32 := rfl
        have e2 : ('\t' : Char).toNat = 9 := rfl
        have e3 : ('\n' : Char).toNat = 10 := rfl
        have e4 : ('\r' : Char).toNat = 13 := rfl
        have e5 : ('\x0b' : Char).toNat = 11 := rfl
        have e6 : ('\x0c' : Char).toNat = 12 := rfl
        have n1 : c ≠ ' ' := char_ne_of_toNat (by omega)
        have n2 : c ≠ '\t' := char_ne_of_toNat (by omega)
        have n3 : c ≠ '\n' := char_ne_of_toNat (by omega)
        have n4 : c ≠ '\r' := char_ne_of_toNat (by omega)
        have n5 : c ≠ '\x0b' := char_ne_of_toNat (by omega)
        have n6 : c ≠ '\x0c' := char_ne_of_toNat (by omega)
        simp [pyWsChar, n1, n2, n3, n4, n5, n6]
    cases n with
    | ofNat m =>
      rw [show dumpVal (.num (Int.ofNat m)) = natRepr m from by
        rw [dumpVal]; rfl]
      exact hdig m
    | negSucc m =>
      rw [show dumpVal (.num (Int.negSucc m)) = '-' :: natRepr (m + 1) from by
        rw [dumpVal]; rfl]
      obtain ⟨c, hc, hw⟩ := hdig (m + 1)
      have hne : natRepr (m + 1) ≠ [] := by
        intro h; rw [h] at hc; simp at hc
      exact ⟨c, by rw [getLast?_cons_ne _ _ hne]; exact hc, hw⟩
  | str s =>
    refine ⟨'"', ?_, by decide⟩
    rw [show dumpVal (.str s) = quoteStr s from by rw [dumpVal]]
    rw [show quoteStr s = '"' :: (escapeList s.data ++ ['"']) from rfl]
    rw [getLast?_cons_ne _ _ (by simp),
      List.getLast?_append_of_ne_nil _ (by simp)]
    rfl
  | arr xs =>
    refine ⟨']', ?_, by decide⟩
    cases xs with
    | nil => rfl
    | cons x t =>
      rw [show dumpVal (.arr (x :: t)) = '[' :: (dumpVal x ++ dumpArrTail t)
        from by rw [dumpVal]]
      have hto : dumpArrTail t ≠ [] := by
        have := dumpArrTail_last t
        cases ht : dumpArrTail t with
        | nil => rw [ht] at this; simp at this
        | cons a b => simp
      rw [getLast?_cons_ne _ _ (by simp [hto]),
        List.getLast?_append_of_ne_nil _ hto]
      exact dumpArrTail_last t
  | obj ms =>
    refine ⟨'}', ?_, by decide⟩
    cases ms with
    | nil => rfl
    | cons kv t =>
      obtain ⟨k, v⟩ := kv
      rw [show dumpVal (.obj ((k, v) :: t)) =
          '{' :: (quoteStr k ++ (':' :: ' ' :: (dumpVal v ++ dumpObjTail t)))
        from by rw [dumpVal]]
      have hto : dumpObjTail t ≠ [] := by
        have := dumpObjTail_last t
        cases ht : dumpObjTail t with
        | nil => rw [ht] at this; simp at this
        | cons a b => simp
      have h1 : dumpVal v ++ dumpObjTail t ≠ [] := by simp [hto]
      have h2 : (':' :: ' ' :: (dumpVal v ++ dumpObjTail t) : List Char) ≠ [] := by
        simp
      rw [getLast?_cons_ne _ _ (by simp [h2]),
        List.getLast?_append_of_ne_nil _ h2, List.getLast?_cons_cons,
        getLast?_cons_ne _ _ h1,
        List.getLast?_append_of_ne_nil _ hto]
      exact dumpObjTail_last t

theorem dumpVal_head_not_pyWs (v : Json) :
    ∃ c t, dumpVal v = c :: t ∧ pyWsChar c = false := by
  obtain ⟨c, t, heq, hc⟩ := dumpVal_head v
  refine ⟨c, t, heq, ?_⟩
  rcases hc with hd | hm
  · obtain ⟨h1, h2⟩ := isDigitC_toNat hd
    have e1 : (' ' : Char).toNat = 32 := rfl
    have e2 : ('\t' : Char).toNat = 9 := rfl
    have e3 : ('\n' : Char).toNat = 10 := rfl
    have e4 : ('\r' : Char).toNat = 13 := rfl
    have e5 : ('\x0b' : Char).toNat = 11 := rfl
    have e6 : ('\x0c' : Char).toNat = 12 := rfl
    have n1 : c ≠ ' ' := char_ne_of_toNat (by omega)
    have n2 : c ≠ '\t' := char_ne_of_toNat (by omega)
    have n3 : c ≠ '\n' := char_ne_of_toNat (by omega)
    have n4 : c ≠ '\r' := char_ne_of_toNat (by omega)
    have n5 : c ≠ '\x0b' := char_ne_of_toNat (by omega)
    have n6 : c ≠ '\x0c' := char_ne_of_toNat (by omega)
    simp [pyWsChar, n1, n2, n3, n4, n5, n6]
  · fin_cases hm <;> decide

/-- Stripping a body that neither starts nor ends with whitespace, followed by
whitespace, recovers exactly the body. -/
theorem pyStrip_body_trail (l trail : List Char) (c0 : Char) (t0 : List Char)
    (hl : l = c0 :: t0) (h0 : pyWsChar c0 = false) (cL : Char)
    (hL : l.getLast? = some cL) (hLw : pyWsChar cL = false)
    (htrail : ∀ x ∈ trail, pyWsChar x = true) :
    pyStrip (l ++ trail) = l := by
  have hfront : (l ++ trail).dropWhile pyWsChar = l ++ trail := by
    rw [hl, List.cons_append, List.dropWhile_cons, h0]
    simp
  rw [pyStrip, hfront, List.reverse_append]
  have hrevtrail : trail.reverse.dropWhile pyWsChar = [] := by
    simp only [List.dropWhile_eq_nil_iff, List.mem_reverse]
    exact fun x hx => htrail x hx
  rw [List.dropWhile_append, hrevtrail]
  simp only [List.isEmpty_nil, if_true]
  have hrevl : l.reverse.dropWhile pyWsChar = l.reverse := by
    have hne : l ≠ [] := by rw [hl]; simp
    obtain ⟨c1, t1, hrev⟩ : ∃ c1 t1, l.reverse = c1 :: t1 := by
      cases hr : l.reverse with
      | nil => rw [List.reverse_eq_nil_iff] at hr; exact absurd hr hne
      | cons a b => exact ⟨a, b, rfl⟩
    have hc1 : c1 = cL := by
      have := List.head?_reverse l
      rw [hrev] at this
      simp only [List.head?_cons] at this
      rw [hL] at this
      exact (Option.some.injEq _ _).mp this.symm |>.symm
    rw [hrev, List.dropWhile_cons, hc1, hLw]
    simp
  rw [hrevl, List.reverse_reverse]

/-! UTF-8: `str.encode()` / `bytes.decode()` over byte values (`Nat`s). -/

/-- UTF-8 encoding of one character. -/
def utf8EncodeChar (c : Char) : List Nat :=
  let v := c.toNat
  if v < 0x80 then [v]
  else if v < 0x800 then [0xC0 + v / 0x40, 0x80 + v % 0x40]
  else if v < 0x10000 then
    [0xE0 + v / 0x1000, 0x80 + v / 0x40 % 0x40, 0x80 + v % 0x40]
  else
    [0xF0 + v / 0x40000, 0x80 + v / 0x1000 % 0x40, 0x80 + v / 0x40 % 0x40,
      0x80 + v % 0x40]

/-- `str.encode()`. -/
def utf8Encode : List Char → List Nat
  | [] => []
  | c :: cs => utf8EncodeChar c ++ utf8Encode cs

mutual

/-- `bytes.decode()` in strict mode: rejects truncated or overlong sequences,
surrogates and values beyond U+10FFFF, exactly as CPython's UTF-8 codec. -/
def utf8Decode : List Nat → Option (List Char)
  | [] => some []
  | b :: rest =>
    if b < 0x80 then (utf8Decode rest).map (Char.ofNat b :: ·)
    else if b < 0xC2 then none
    else if b < 0xE0 then utf8Dec2 b rest
    else if b < 0xF0 then utf8Dec3 b rest
    else if b < 0xF5 then utf8Dec4 b rest
    else none

/-- Continuation of a two-byte sequence with lead byte `b`. -/
def utf8Dec2 (b : Nat) : List Nat → Option (List Char)
  | b1 :: r =>
    if 0x80 ≤ b1 ∧ b1 < 0xC0 then
      (utf8Decode r).map (Char.ofNat ((b - 0xC0) * 0x40 + (b1 - 0x80)) :: ·)
    else none
  | [] => none

/-- Continuation of a three-byte sequence with lead byte `b`. -/
def utf8Dec3 (b : Nat) : List Nat → Option (List Char)
  | b1 :: b2 :: r =>
    if (0x80 ≤ b1 ∧ b1 < 0xC0) ∧ (0x80 ≤ b2 ∧ b2 < 0xC0) then
      let v := (b - 0xE0) * 0x1000 + (b1 - 0x80) * 0x40 + (b2 - 0x80)
      if 0x800 ≤ v ∧ ¬(0xD800 ≤ v ∧ v < 0xE000) then
        (utf8Decode r).map (Char.ofNat v :: ·)
      else none
    else none
  | _ => none

/-- Continuation of a four-byte sequence with lead byte `b`. -/
def utf8Dec4 (b : Nat) : List Nat → Option (List Char)
  | b1 :: b2 :: b3 :: r =>
    if (0x80 ≤ b1 ∧ b1 < 0xC0) ∧ (0x80 ≤ b2 ∧ b2 < 0xC0) ∧
        (0x80 ≤ b3 ∧ b3 < 0xC0) then
      let v := (b - 0xF0) * 0x40000 + (b1 - 0x80) * 0x1000 +
        (b2 - 0x80) * 0x40 + (b3 - 0x80)
      if 0x10000 ≤ v ∧ v < 0x110000 then
        (utf8Decode r).map (Char.ofNat v :: ·)
      else none
    else none
  | _ => none

end

theorem utf8Decode_encodeChar (c : Char) (bs : List Nat) :
    utf8Decode (utf8EncodeChar c ++ bs) = (utf8Decode bs).map (c :: ·) := by
  have hv := char_toNat_valid c
  have hofnat := Char.ofNat_toNat c
  by_cases h1 : c.toNat < 0x80
  · rw [show utf8EncodeChar c = [c.toNat] from by simp [utf8EncodeChar, h1]]
    rw [show ([c.toNat] ++ bs : List Nat) = c.toNat :: bs from rfl]
    rw [utf8Decode.eq_def]
    simp only []
    rw [if_pos h1, hofnat]
  · by_cases h2 : c.toNat < 0x800
    · rw [show utf8EncodeChar c =
          [0xC0 + c.toNat / 0x40, 0x80 + c.toNat % 0x40] from by
        simp [utf8EncodeChar, h1, h2]]
      rw [show ([0xC0 + c.toNat / 0x40, 0x80 + c.toNat % 0x40] ++ bs : List Nat)
        = (0xC0 + c.toNat / 0x40) :: ((0x80 + c.toNat % 0x40) :: bs) from rfl]
      rw [utf8Decode.eq_def]
      simp only []
      rw [if_neg (by omega), if_neg (by omega), if_pos (by omega)]
      rw [utf8Dec2]
      have hm := Nat.mod_lt c.toNat (show 0 < 0x40 by norm_num)
      rw [if_pos (by omega)]
      have hval : (0xC0 + c.toNat / 0x40 - 0xC0) * 0x40 +
          (0x80 + c.toNat % 0x40 - 0x80) = c.toNat := by omega
      rw [hval, hofnat]
    · by_cases h3 : c.toNat < 0x10000
      · rw [show utf8EncodeChar c =
            [0xE0 + c.toNat / 0x1000, 0x80 + c.toNat / 0x40 % 0x40,
              0x80 + c.toNat % 0x40] from by
          simp [utf8EncodeChar, h1, h2, h3]]
        rw [show ([0xE0 + c.toNat / 0x1000, 0x80 + c.toNat / 0x40 % 0x40,
              0x80 + c.toNat % 0x40] ++ bs : List Nat)
          = (0xE0 + c.toNat / 0x1000) :: ((0x80 + c.toNat / 0x40 % 0x40) ::
              ((0x80 + c.toNat % 0x40) :: bs)) from rfl]
        rw [utf8Decode.eq_def]
        simp only []
        have hm1 := Nat.mod_lt (c.toNat / 0x40) (show 0 < 0x40 by norm_num)
        have hm2 := Nat.mod_lt c.toNat (show 0 < 0x40 by norm_num)
        rw [if_neg (by omega), if_neg (by omega), if_neg (by omega),
          if_pos (by omega)]
        rw [utf8Dec3]
        rw [if_pos (by constructor <;> constructor <;> omega)]
        simp only []
        have hval : (0xE0 + c.toNat / 0x1000 - 0xE0) * 0x1000 +
            (0x80 + c.toNat / 0x40 % 0x40 - 0x80) * 0x40 +
            (0x80 + c.toNat % 0x40 - 0x80) = c.toNat := by omega
        rw [hval]
        rw [if_pos (by omega)]
        rw [hofnat]
      · rw [show utf8EncodeChar c =
            [0xF0 + c.toNat / 0x40000, 0x80 + c.toNat / 0x1000 % 0x40,
              0x80 + c.toNat / 0x40 % 0x40, 0x80 + c.toNat % 0x40] from by
          simp [utf8EncodeChar, h1, h2, h3]]
        rw [show ([0xF0 + c.toNat / 0x40000, 0x80 + c.toNat / 0x1000 % 0x40,
              0x80 + c.toNat / 0x40 % 0x40, 0x80 + c.toNat % 0x40] ++ bs : List Nat)
          = (0xF0 + c.toNat / 0x40000) :: ((0x80 + c.toNat / 0x1000 % 0x40) ::
              ((0x80 + c.toNat / 0x40 % 0x40) :: ((0x80 + c.toNat % 0x40) :: bs)))
          from rfl]
        rw [utf8Decode.eq_def]
        simp only []
        have hm1 := Nat.mod_lt (c.toNat / 0x1000) (show 0 < 0x40 by norm_num)
        have hm2 := Nat.mod_lt (c.toNat / 0x40) (show 0 < 0x40 by norm_num)
        have hm3 := Nat.mod_lt c.toNat (show 0 < 0x40 by norm_num)
        rw [if_neg (by omega), if_neg (by omega), if_neg (by omega),
          if_neg (by omega), if_pos (by omega)]
        rw [utf8Dec4]
        rw [if_pos (by refine ⟨⟨?_, ?_⟩, ⟨?_, ?_⟩, ?_, ?_⟩ <;> omega)]
        simp only []
        have hval : (0xF0 + c.toNat / 0x40000 - 0xF0) * 0x40000 +
            (0x80 + c.toNat / 0x1000 % 0x40 - 0x80) * 0x1000 +
            (0x80 + c.toNat / 0x40 % 0x40 - 0x80) * 0x40 +
            (0x80 + c.toNat % 0x40 - 0x80) = c.toNat := by omega
        rw [hval]
        rw [if_pos (by omega)]
        rw [hofnat]

theorem utf8Decode_encode (s : List Char) (bs : List Nat) :
    utf8Decode (utf8Encode s ++ bs) = (utf8Decode bs).map (s ++ ·) := by
  induction s with
  | nil =>
    rw [show utf8Encode [] = [] from rfl, List.nil_append]
    cases h : utf8Decode bs <;> simp
  | cons c t ih =>
    rw [show utf8Encode (c :: t) = utf8EncodeChar c ++ utf8Encode t from rfl,
      List.append_assoc, utf8Decode_encodeChar, ih]
    cases h : utf8Decode bs <;> simp

theorem utf8Decode_encode_nl (s : List Char) :
    utf8Decode (utf8Encode s ++ [10]) = some (s ++ ['\n']) := by
  rw [utf8Decode_encode]
  rw [show utf8Decode [10] = some ['\n'] from rfl]
  rfl

/-- Byte 10 occurs in an encoded string exactly where `'\n'` occurs. -/
theorem mem_utf8EncodeChar_10 (c : Char) : 10 ∈ utf8EncodeChar c ↔ c = '\n' := by
  constructor
  · intro h
    by_cases h1 : c.toNat < 0x80
    · rw [show utf8EncodeChar c = [c.toNat] from by
        simp [utf8EncodeChar, h1]] at h
      simp at h
      have hc : c = Char.ofNat 10 := by
        rw [h]; exact (Char.ofNat_toNat c).symm
      rw [hc]
    · exfalso
      by_cases h2 : c.toNat < 0x800
      · rw [show utf8EncodeChar c =
            [0xC0 + c.toNat / 0x40, 0x80 + c.toNat % 0x40] from by
          simp [utf8EncodeChar, h1, h2]] at h
        simp at h
        omega
      · by_cases h3 : c.toNat < 0x10000
        · rw [show utf8EncodeChar c =
              [0xE0 + c.toNat / 0x1000, 0x80 + c.toNat / 0x40 % 0x40,
                0x80 + c.toNat % 0x40] from by
            simp [utf8EncodeChar, h1, h2, h3]] at h
          simp at h
          omega
        · rw [show utf8EncodeChar c =
              [0xF0 + c.toNat / 0x40000, 0x80 + c.toNat / 0x1000 % 0x40,
                0x80 + c.toNat / 0x40 % 0x40, 0x80 + c.toNat % 0x40] from by
            simp [utf8EncodeChar, h1, h2, h3]] at h
          simp at h
          omega
  · intro h
    subst h
    rw [show utf8EncodeChar '\n' = [10] from rfl]
    simp

theorem mem_utf8Encode_10 (s : List Char) : 10 ∈ utf8Encode s ↔ '\n' ∈ s := by
  induction s with
  | nil => simp [utf8Encode]
  | cons c t ih =>
    rw [show utf8Encode (c :: t) = utf8EncodeChar c ++ utf8Encode t from rfl]
    simp only [List.mem_append, List.mem_cons, ih, mem_utf8EncodeChar_10]
    constructor
    · rintro (h | h)
      · exact Or.inl h.symm
      · exact Or.inr h
    · rintro (h | h)
      · exact Or.inl h.symm
      · exact Or.inr h

/-! The `call_daemon` socket exchange (source lines 19–41). -/

/-- The `while True` receive loop (source lines 32–39): accumulate chunks
until `recv` returns empty (EOF) or a newline byte is present in the
accumulated buffer.  `chunks` are the successive `recv` results; exhaustion
of the list is EOF. -/
def readLoop : List (List Nat) → List Nat → List Nat
  | [], response => response
  | chunk :: rest, response =>
    if chunk = [] then response
    else
      let response' := response ++ chunk
      if 10 ∈ response' then response' else readLoop rest response'

/-- The same loop with an explicit iteration budget: `none` means the loop is
still running after `fuel` iterations. -/
def readLoopF : Nat → List (List Nat) → List Nat → Option (List Nat)
  | 0, _, _ => none
  | fuel + 1, chunks, response =>
    match chunks with
    | [] => some response
    | chunk :: rest =>
      if chunk = [] then some response
      else
        let response' := response ++ chunk
        if 10 ∈ response' then some response'
        else readLoopF fuel rest response'

/-- The loop reaches its exit within `chunks.length + 1` iterations: it never
runs forever on a finite stream. -/
theorem readLoopF_terminates (chunks : List (List Nat)) :
    ∀ acc, readLoopF (chunks.length + 1) chunks acc =
      some (readLoop chunks acc) := by
  induction chunks with
  | nil => intro acc; rfl
  | cons c rest ih =>
    intro acc
    rw [readLoopF, readLoop]
    by_cases hc : c = []
    · simp [hc]
    · simp only [hc, if_neg, reduceIte]
      by_cases h10 : 10 ∈ acc ++ c
      · simp [h10]
      · simp [h10, ih]

/-- `response.decode()` / `.strip()` / `json.loads(...)` (source line 41):
`none` is a raised decode fault. -/
def parseResponse (buf : List Nat) : Option Json :=
  match utf8Decode buf with
  | none => none
  | some cs => loads (pyStrip cs)

/-- The response `call_daemon` computes from the peer's byte chunks. -/
def callDaemonRecv (chunks : List (List Nat)) : Option Json :=
  parseResponse (readLoop chunks [])

/-! Request construction (source lines 21–26): `uuid4`, the envelope, and the
payload bytes. -/

/-- Fixed-width lowercase hex, as `"%032x" % n` produces. -/
def hexFixed : Nat → Nat → List Char
  | 0, _ => []
  | len + 1, n => hexFixed len (n / 16) ++ [hexDigitChar (n % 16)]

/-- Force the RFC 4122 variant bits (bits 62–63 become `10`), as `uuid.UUID`
does for `version=4`. -/
def setVariant (n : Nat) : Nat :=
  n % 4611686018427387904 + 2 * 4611686018427387904 +
    n / 18446744073709551616 * 18446744073709551616

/-- Force the version bits (bits 76–79 become `0100`). -/
def setVersion (n : Nat) : Nat :=
  n % 75557863725914323419136 + 4 * 75557863725914323419136 +
    n / 1208925819614629174706176 * 1208925819614629174706176

/-- The 128-bit integer of `uuid.uuid4()` when `os.urandom(16)` yields the
big-endian value `r`. -/
def uuid4Int (r : Nat) : Nat := setVersion (setVariant r)

/-- `str(uuid.uuid4())`: 32 hex digits with hyphens after 8, 12, 16 and 20. -/
def uuid4Str (r : Nat) : String :=
  let d := hexFixed 32 (uuid4Int r)
  String.mk (d.take 8 ++ '-' ::
    ((d.drop 8).take 4 ++ '-' ::
      ((d.drop 12).take 4 ++ '-' ::
        ((d.drop 16).take 4 ++ '-' :: d.drop 20))))

/-- `params or {}`: Python's `or` takes the right operand when the left one
is falsy (in particular when it is `None`). -/
def paramsOrEmpty : Option Json → Json
  | none => .obj []
  | some p => if pyTruthy p then p else .obj []

/-- The request envelope of source lines 21–26, with `r` the 128-bit draw
behind `uuid.uuid4()`. -/
def requestJson (r : Nat) (method : String) (params : Option Json) : Json :=
  .obj [("id", .str (uuid4Str r)), ("v", .num 1), ("method", .str method),
        ("params", paramsOrEmpty params)]

/-- `(json.dumps(request) + "\n").encode()` (source line 30). -/
def requestPayload (r : Nat) (method : String) (params : Option Json) :
    List Nat :=
  utf8Encode (dumpVal (requestJson r method params) ++ ['\n'])

/-! Socket lifecycle events, for the `with socket.socket(...)` scoping. -/

/-- Events on the socket handle, in program order. -/
inductive SockEv where
  | sockOpen : SockEv
  | sockConnect : SockEv
  | sockSend (data : List Nat) : SockEv
  | sockRecv : SockEv
  | sockClose : SockEv
deriving Repr

def isOpenEv : SockEv → Bool
  | .sockOpen => true
  | _ => false

def isConnectEv : SockEv → Bool
  | .sockConnect => true
  | _ => false

def isCloseEv : SockEv → Bool
  | .sockClose => true
  | _ => false

/-- Number of `recv` calls the loop performs on the given stream. -/
def recvCalls : List (List Nat) → List Nat → Nat
  | [], _ => 1
  | chunk :: rest, response =>
    if chunk = [] then 1
    else if 10 ∈ response ++ chunk then 1
    else 1 + recvCalls rest (response ++ chunk)

/-- The receive loop when `recv` may raise: with `recvErr` set, exhausting the
stream raises (`none`) instead of returning an empty read. -/
def readLoopE (recvErr : Bool) : List (List Nat) → List Nat → Option (List Nat)
  | [], response => if recvErr then none else some response
  | chunk :: rest, response =>
    if chunk = [] then some response
    else
      let response' := response ++ chunk
      if 10 ∈ response' then some response'
      else readLoopE recvErr rest response'

/-- `call_daemon` with its socket events: the `with` block opens the socket
and closes it on every exit path — connect failure, an exception in the read
loop, a decode fault, or normal return.  The result is `none` when an
exception propagates to the caller. -/
def callDaemon (r : Nat) (method : String) (params : Option Json)
    (connectOk recvErr : Bool) (chunks : List (List Nat)) :
    Option Json × List SockEv :=
  if connectOk then
    let pre := [SockEv.sockOpen, SockEv.sockConnect,
      SockEv.sockSend (requestPayload r method params)] ++
      List.replicate (recvCalls chunks []) SockEv.sockRecv
    match readLoopE recvErr chunks [] with
    | none => (none, pre ++ [SockEv.sockClose])
    | some buf => (parseResponse buf, pre ++ [SockEv.sockClose])
  else (none, [SockEv.sockOpen, SockEv.sockConnect, SockEv.sockClose])

/-! Read-loop lemmas. -/

theorem readLoop_no10 (chunks : List (List Nat)) :
    ∀ acc, (∀ c ∈ chunks, c ≠ []) → 10 ∉ acc ++ chunks.flatten →
      readLoop chunks acc = acc ++ chunks.flatten := by
  induction chunks with
  | nil => intro acc _ _; simp [readLoop]
  | cons c rest ih =>
    intro acc hne hnl
    rw [readLoop]
    rw [if_neg (hne c (List.mem_cons_self c rest))]
    simp only [List.flatten_cons] at hnl
    have h10 : 10 ∉ acc ++ c := by
      intro h
      apply hnl
      rcases List.mem_append.mp h with h2 | h2
      · exact List.mem_append.mpr (Or.inl h2)
      · exact List.mem_append.mpr (Or.inr (List.mem_append.mpr (Or.inl h2)))
    rw [if_neg h10]
    have := ih (acc ++ c) (fun y hy => hne y (List.mem_cons_of_mem c hy))
      (by
        intro h
        apply hnl
        rcases List.mem_append.mp h with h2 | h2
        · rcases List.mem_append.mp h2 with h3 | h3
          · exact List.mem_append.mpr (Or.inl h3)
          · exact List.mem_append.mpr (Or.inr (List.mem_append.mpr (Or.inl h3)))
        · exact List.mem_append.mpr (Or.inr (List.mem_append.mpr (Or.inr h2))))
    rw [this]
    simp [List.append_assoc]

theorem readLoop_last10 (chunks : List (List Nat)) :
    ∀ acc S, (∀ c ∈ chunks, c ≠ []) → acc ++ chunks.flatten = S ++ [10] →
      10 ∉ S → 10 ∉ acc → readLoop chunks acc = S ++ [10] := by
  induction chunks with
  | nil =>
    intro acc S _ heq hS hacc
    simp only [List.flatten_nil, List.append_nil] at heq
    subst heq
    exact absurd (List.mem_append.mpr (Or.inr (by simp))) hacc
  | cons c rest ih =>
    intro acc S hne heq hS hacc
    rw [readLoop]
    rw [if_neg (hne c (List.mem_cons_self c rest))]
    simp only [List.flatten_cons, ← List.append_assoc] at heq
    by_cases h10 : 10 ∈ acc ++ c
    · rw [if_pos h10]
      by_cases hlen : (acc ++ c).length ≤ S.length
      · exfalso
        have htake : acc ++ c = (S ++ [10]).take (acc ++ c).length := by
          rw [← heq, List.take_left]
        rw [List.take_append_of_le_length hlen] at htake
        rw [htake] at h10
        exact hS (List.mem_of_mem_take h10)
      · have hflat : rest.flatten = [] := by
          have hl := congrArg List.length heq
          simp only [List.length_append, List.length_cons,
            List.length_nil] at hl hlen
          have : rest.flatten.length = 0 := by omega
          exact List.eq_nil_of_length_eq_zero this
        rw [hflat, List.append_nil] at heq
        exact heq
    · rw [if_neg h10]
      exact ih (acc ++ c) S (fun y hy => hne y (List.mem_cons_of_mem c hy))
        (by rw [List.append_assoc] at heq ⊢; exact heq) hS h10

theorem readLoop_mid (body : List (List Nat)) :
    ∀ acc lastC, (∀ c ∈ body, c ≠ [] ∧ 10 ∉ c) → lastC ≠ [] → 10 ∉ acc →
      readLoop (body ++ [lastC]) acc = acc ++ (body ++ [lastC]).flatten := by
  induction body with
  | nil =>
    intro acc lastC _ hl _
    simp only [List.nil_append, List.flatten_cons, List.flatten_nil,
      List.append_nil]
    rw [readLoop]
    rw [if_neg hl]
    by_cases h10 : 10 ∈ acc ++ lastC
    · rw [if_pos h10]
    · rw [if_neg h10, readLoop]
  | cons c body2 ih =>
    intro acc lastC hbody hl hacc
    obtain ⟨hcne, hc10⟩ := hbody c (List.mem_cons_self c body2)
    rw [List.cons_append, readLoop]
    rw [if_neg hcne]
    have h10 : 10 ∉ acc ++ c := by
      intro h
      rcases List.mem_append.mp h with h2 | h2
      · exact hacc h2
      · exact hc10 h2
    rw [if_neg h10]
    rw [ih (acc ++ c) lastC
      (fun y hy => hbody y (List.mem_cons_of_mem c hy)) hl h10]
    simp [List.append_assoc]

theorem readLoopE_false (chunks : List (List Nat)) :
    ∀ acc, readLoopE false chunks acc = some (readLoop chunks acc) := by
  induction chunks with
  | nil => intro acc; rfl
  | cons c rest ih =>
    intro acc
    rw [readLoopE, readLoop]
    by_cases hc : c = []
    · simp [hc]
    · by_cases h10 : 10 ∈ acc ++ c
      · simp [hc, h10]
      · simp [hc, h10, ih]

theorem callDaemon_fst (r : Nat) (method : String) (params : Option Json)
    (chunks : List (List Nat)) :
    (callDaemon r method params true false chunks).1 = callDaemonRecv chunks := by
  rw [callDaemon]
  simp only [if_true, readLoopE_false]
  rfl

/-- Claim C2: when the peer's byte stream is a JSON value serialized on a
single line followed by a newline byte, delivered in one or more (non-empty)
chunks, `call_daemon` returns exactly that value. -/
theorem claim_C2 (r : Nat) (method : String) (params : Option Json)
    (v : Json) (chunks : List (List Nat))
    (hne : ∀ c ∈ chunks, c ≠ [])
    (hstream : chunks.flatten = utf8Encode (dumpVal v) ++ [10]) :
    (callDaemon r method params true false chunks).1 = some v := by
  rw [callDaemon_fst]
  have hS : (10 : Nat) ∉ utf8Encode (dumpVal v) := by
    rw [mem_utf8Encode_10]
    intro h
    exact dumpVal_ne_nl v '\n' h rfl
  have hloop : readLoop chunks [] = utf8Encode (dumpVal v) ++ [10] :=
    readLoop_last10 chunks [] _ hne (by simpa using hstream) hS (by simp)
  rw [callDaemonRecv, hloop, parseResponse]
  rw [utf8Decode_encode_nl]
  simp only []
  obtain ⟨c0, t0, hh, h0⟩ := dumpVal_head_not_pyWs v
  obtain ⟨cL, hL, hLw⟩ := dumpVal_last v
  rw [pyStrip_body_trail (dumpVal v) ['\n'] c0 t0 hh h0 cL hL hLw
    (by intro x hx; simp at hx; subst hx; decide)]
  have := loads_dump_trail v [] (by intro x hx; simp at hx)
  simpa using this

theorem claim_C2_witness :
    ((∀ c ∈ ([[123, 125], [10]] : List (List Nat)), c ≠ []) ∧
      ([[123, 125], [10]] : List (List Nat)).flatten =
        utf8Encode (dumpVal (.obj [])) ++ [10]) ∧
    (callDaemon 0 "health" none true false [[123, 125], [10]]).1 =
      some (.obj []) :=
  ⟨⟨by decide, by rfl⟩,
    claim_C2 0 "health" none (.obj []) [[123, 125], [10]] (by decide) (by rfl)⟩

/-- Claim C3: when the newline-terminated response is split across several
non-empty partial writes and the newline arrives only in the final chunk, the
read loop accumulates every chunk: the buffer handed to the decoder is the
complete stream, and nothing is parsed before that. -/
theorem claim_C3 (body : List (List Nat)) (lastC : List Nat)
    (hbody : ∀ c ∈ body, c ≠ [] ∧ 10 ∉ c) (hl : lastC ≠ [])
    (h10 : 10 ∈ lastC) :
    readLoop (body ++ [lastC]) [] = (body ++ [lastC]).flatten ∧
    callDaemonRecv (body ++ [lastC]) =
      parseResponse ((body ++ [lastC]).flatten) := by
  have hloop := readLoop_mid body [] lastC hbody hl (by simp)
  simp only [List.nil_append] at hloop
  exact ⟨hloop, by rw [callDaemonRecv, hloop]⟩

theorem claim_C3_witness :
    ((∀ c ∈ ([[123], [125]] : List (List Nat)), c ≠ [] ∧ 10 ∉ c) ∧
      ([10] : List Nat) ≠ [] ∧ (10 : Nat) ∈ ([10] : List Nat)) ∧
    (readLoop ([[123], [125]] ++ [[10]]) [] =
        (([[123], [125]] ++ [[10]]) : List (List Nat)).flatten ∧
      callDaemonRecv ([[123], [125]] ++ [[10]]) =
        parseResponse ((([[123], [125]] ++ [[10]]) : List (List Nat)).flatten)) :=
  ⟨⟨by decide, by decide, by decide⟩,
    claim_C3 [[123], [125]] [10] (by decide) (by decide) (by decide)⟩

theorem utf8Encode_append (x y : List Char) :
    utf8Encode (x ++ y) = utf8Encode x ++ utf8Encode y := by
  induction x with
  | nil => rfl
  | cons c t ih =>
    simp only [List.cons_append]
    rw [show utf8Encode (c :: (t ++ y)) =
      utf8EncodeChar c ++ utf8Encode (t ++ y) from rfl]
    rw [show utf8Encode (c :: t) = utf8EncodeChar c ++ utf8Encode t from rfl]
    rw [ih, List.append_assoc]

/-- Claim C4 (corrected): when the stream contains no newline byte and ends
with the peer closing the connection, the read loop does terminate — an
iteration budget of one call per chunk plus one suffices — and the buffer it
hands over is the complete accumulated stream; `call_daemon` then returns
whatever decoding that buffer yields.  It does NOT unconditionally raise a
decode fault: the fault occurs exactly when the accumulated bytes fail UTF-8
decoding or JSON parsing, and a stream that happens to be a valid JSON
document without a trailing newline is returned normally (see the
counterexample). -/
theorem claim_C4 (r : Nat) (method : String) (params : Option Json)
    (chunks : List (List Nat))
    (hne : ∀ c ∈ chunks, c ≠ [])
    (hnl : 10 ∉ chunks.flatten) :
    readLoopF (chunks.length + 1) chunks [] = some chunks.flatten ∧
    (callDaemon r method params true false chunks).1 =
      parseResponse chunks.flatten := by
  have hloop : readLoop chunks [] = chunks.flatten := by
    have := readLoop_no10 chunks [] hne (by simpa using hnl)
    simpa using this
  constructor
  · rw [readLoopF_terminates, hloop]
  · rw [callDaemon_fst, callDaemonRecv, hloop]

theorem claim_C4_witness :
    ((∀ c ∈ ([[123, 125]] : List (List Nat)), c ≠ []) ∧
      (10 : Nat) ∉ ([[123, 125]] : List (List Nat)).flatten) ∧
    (readLoopF (([[123, 125]] : List (List Nat)).length + 1) [[123, 125]] [] =
        some ([[123, 125]] : List (List Nat)).flatten ∧
      (callDaemon 0 "health" none true false [[123, 125]]).1 =
        parseResponse ([[123, 125]] : List (List Nat)).flatten) :=
  ⟨⟨by decide, by decide⟩,
    claim_C4 0 "health" none [[123, 125]] (by decide) (by decide)⟩

theorem claim_C4_counterexample :
    ((10 : Nat) ∉ ([[123, 34, 111, 107, 34, 58, 32, 116, 114, 117, 101, 125]] :
        List (List Nat)).flatten) ∧
    (callDaemon 0 "health" none true false
        [[123, 34, 111, 107, 34, 58, 32, 116, 114, 117, 101, 125]]).1 =
      some (.obj [("ok", .bool true)]) :=
  ⟨by decide, rfl⟩

/-- Claim C9 (corrected): the loop indeed never truncates at the first
newline — the entire accumulated buffer is decoded, stripped and parsed as
one JSON document — so when a chunk carries a complete second serialized
message after the first newline, parsing faults with extra data instead of
returning the first message.  But the claim's universal form is too strong:
bytes after the first newline that are mere whitespace are removed by
`strip()` and the first message IS returned normally (see the
counterexample). -/
theorem claim_C9 (v1 v2 : Json) :
    callDaemonRecv [utf8Encode (dumpVal v1) ++
      10 :: (utf8Encode (dumpVal v2) ++ [10])] = none := by
  have hmem : (10 : Nat) ∈ utf8Encode (dumpVal v1) ++
      10 :: (utf8Encode (dumpVal v2) ++ [10]) :=
    List.mem_append.mpr (Or.inr (List.mem_cons_self _ _))
  have hne : utf8Encode (dumpVal v1) ++
      10 :: (utf8Encode (dumpVal v2) ++ [10]) ≠ [] :=
    List.ne_nil_of_mem hmem
  rw [callDaemonRecv, readLoop]
  rw [if_neg hne]
  simp only [List.nil_append]
  rw [if_pos hmem]
  have hchunk : utf8Encode (dumpVal v1) ++
      10 :: (utf8Encode (dumpVal v2) ++ [10]) =
      utf8Encode (dumpVal v1 ++ [Char.ofNat 10]) ++
        (utf8Encode (dumpVal v2) ++ [10]) := by
    rw [utf8Encode_append]
    rw [show utf8Encode [Char.ofNat 10] = [10] from rfl]
    simp [List.append_assoc]
  rw [hchunk, parseResponse]
  rw [utf8Decode_encode, utf8Decode_encode_nl]
  simp only [Option.map]
  have hjoin : (dumpVal v1 ++ [Char.ofNat 10]) ++
      (dumpVal v2 ++ [Char.ofNat 10]) =
      (dumpVal v1 ++ Char.ofNat 10 :: dumpVal v2) ++ [Char.ofNat 10] := by
    simp [List.append_assoc]
  rw [hjoin]
  obtain ⟨c0, t0, heq1, h0⟩ := dumpVal_head_not_pyWs v1
  obtain ⟨cL, hL2, hLw⟩ := dumpVal_last v2
  have hlast : (dumpVal v1 ++ Char.ofNat 10 :: dumpVal v2).getLast? =
      some cL := by
    rw [List.getLast?_append_of_ne_nil _ (by simp)]
    rw [getLast?_cons_ne _ _ (dumpVal_ne_nil v2)]
    exact hL2
  rw [pyStrip_body_trail (dumpVal v1 ++ Char.ofNat 10 :: dumpVal v2)
    [Char.ofNat 10] c0 (t0 ++ Char.ofNat 10 :: dumpVal v2)
    (by rw [heq1]; rfl) h0 cL hlast hLw
    (by intro x hx; simp at hx; subst hx; decide)]
  exact loads_two_docs v1 v2

theorem claim_C9_counterexample :
    ([49, 10, 32, 10] : List Nat) = [49, 10] ++ [32, 10] ∧
    callDaemonRecv [[49, 10, 32, 10]] = some (.num 1) :=
  ⟨rfl, rfl⟩

theorem countP_replicate_eq_zero {α : Type} (p : α → Bool) (x : α)
    (hx : p x = false) : ∀ n, (List.replicate n x).countP p = 0 := by
  intro n
  induction n with
  | zero => rfl
  | succ m ih =>
    rw [List.replicate_succ, List.countP_cons, hx]
    simpa using ih

/-- Claim C8: on every execution path — normal return, connect failure, a
`recv` exception inside the read loop, and a decode fault — the socket's
event trace contains exactly one open, exactly one connect and exactly one
close, and the close is the final event: the handle never leaks and no retry
happens. -/
theorem claim_C8 (r : Nat) (method : String) (params : Option Json)
    (connectOk recvErr : Bool) (chunks : List (List Nat)) :
    ((callDaemon r method params connectOk recvErr chunks).2.countP isOpenEv
        = 1 ∧
      (callDaemon r method params connectOk recvErr chunks).2.countP
        isConnectEv = 1 ∧
      (callDaemon r method params connectOk recvErr chunks).2.countP isCloseEv
        = 1) ∧
    (callDaemon r method params connectOk recvErr chunks).2.getLast? =
      some SockEv.sockClose := by
  cases connectOk with
  | false => exact ⟨⟨rfl, rfl, rfl⟩, rfl⟩
  | true =>
    rw [callDaemon]
    rw [if_pos rfl]
    cases h : readLoopE recvErr chunks [] with
    | none =>
      simp only []
      refine ⟨⟨?_, ?_, ?_⟩, ?_⟩
      · simp [List.countP_append, List.countP_cons, isOpenEv,
          countP_replicate_eq_zero]
      · simp [List.countP_append, List.countP_cons, isConnectEv,
          countP_replicate_eq_zero]
      · simp [List.countP_append, List.countP_cons, isCloseEv,
          countP_replicate_eq_zero]
      · rw [List.getLast?_append_of_ne_nil _ (by simp)]
        rfl
    | some buf =>
      simp only []
      refine ⟨⟨?_, ?_, ?_⟩, ?_⟩
      · simp [List.countP_append, List.countP_cons, isOpenEv,
          countP_replicate_eq_zero]
      · simp [List.countP_append, List.countP_cons, isConnectEv,
          countP_replicate_eq_zero]
      · simp [List.countP_append, List.countP_cons, isCloseEv,
          countP_replicate_eq_zero]
      · rw [List.getLast?_append_of_ne_nil _ (by simp)]
        rfl

/-! uuid4 string properties. -/

theorem hexFixed_length : ∀ len n, (hexFixed len n).length = len := by
  intro len
  induction len with
  | zero => intro n; rfl
  | succ m ih =>
    intro n
    rw [hexFixed, List.length_append, ih]
    rfl

/-- The numeric value of a lowercase hex digit character. -/
def hexDigitVal (c : Char) : Nat :=
  if c.toNat ≤ 57 then c.toNat - 48 else c.toNat - 87

theorem hexDigitVal_hexDigitChar (d : Nat) (h : d < 16) :
    hexDigitVal (hexDigitChar d) = d := by
  interval_cases d <;> rfl

/-- Value of a big-endian hex digit list. -/
def hexToNat (l : List Char) : Nat :=
  l.foldl (fun a c => a * 16 + hexDigitVal c) 0

theorem hexToNat_shift (a : Nat) (l : List Char) :
    l.foldl (fun a c => a * 16 + hexDigitVal c) a =
      a * 16 ^ l.length + hexToNat l := by
  induction l generalizing a with
  | nil => simp [hexToNat]
  | cons c t ih =>
    simp only [List.foldl_cons]
    rw [ih]
    rw [show hexToNat (c :: t) =
      hexDigitVal c * 16 ^ t.length + hexToNat t from by
        rw [hexToNat, List.foldl_cons]
        rw [ih]
        ring]
    simp only [List.length_cons, pow_succ]
    ring

theorem hexToNat_hexFixed (len : Nat) :
    ∀ n, hexToNat (hexFixed len n) = n % 16 ^ len := by
  induction len with
  | zero => intro n; simp [hexFixed, hexToNat, Nat.mod_one]
  | succ m ih =>
    intro n
    rw [hexFixed, hexToNat, List.foldl_append]
    simp only [List.foldl_cons, List.foldl_nil]
    rw [show List.foldl (fun a c => a * 16 + hexDigitVal c) 0
      (hexFixed m (n / 16)) = hexToNat (hexFixed m (n / 16)) from rfl]
    rw [ih (n / 16)]
    rw [hexDigitVal_hexDigitChar (n % 16) (Nat.mod_lt n (by omega))]
    rw [pow_succ, mul_comm (16 ^ m) 16, Nat.mod_mul]
    generalize n / 16 % 16 ^ m = k
    omega

theorem hexFixed_all_digits :
    ∀ len n c, c ∈ hexFixed len n → ∃ d, d < 16 ∧ c = hexDigitChar d := by
  intro len
  induction len with
  | zero => intro n c hc; exact absurd hc (by simp [hexFixed])
  | succ m ih =>
    intro n c hc
    rw [hexFixed] at hc
    rcases List.mem_append.mp hc with h | h
    · exact ih (n / 16) c h
    · simp at h
      exact ⟨n % 16, Nat.mod_lt n (by omega), h⟩

theorem hexDigitChar_ne_dash (d : Nat) (h : d < 16) : hexDigitChar d ≠ '-' := by
  interval_cases d <;> decide

theorem segs_eq (d : List Char) :
    d.take 8 ++ ((d.drop 8).take 4 ++ ((d.drop 12).take 4 ++
      ((d.drop 16).take 4 ++ d.drop 20))) = d := by
  have e2 : (d.drop 8).drop 4 = d.drop 12 := by rw [List.drop_drop]
  have e3 : (d.drop 12).drop 4 = d.drop 16 := by rw [List.drop_drop]
  have e4 : (d.drop 16).drop 4 = d.drop 20 := by rw [List.drop_drop]
  have h4 : (d.drop 16).take 4 ++ d.drop 20 = d.drop 16 := by
    rw [← e4]; exact List.take_append_drop 4 (d.drop 16)
  have h3 : (d.drop 12).take 4 ++ d.drop 16 = d.drop 12 := by
    rw [← e3]; exact List.take_append_drop 4 (d.drop 12)
  have h2 : (d.drop 8).take 4 ++ d.drop 12 = d.drop 8 := by
    rw [← e2]; exact List.take_append_drop 4 (d.drop 8)
  rw [h4, h3, h2]
  exact List.take_append_drop 8 d

theorem filter_dashes_uuid (d : List Char)
    (hd : ∀ c ∈ d, c ≠ '-') :
    List.filter (fun c => !(c = '-' : Bool)) (d.take 8 ++ '-' ::
      ((d.drop 8).take 4 ++ '-' :: ((d.drop 12).take 4 ++ '-' ::
        ((d.drop 16).take 4 ++ '-' :: d.drop 20)))) = d := by
  have hseg : ∀ l : List Char, (∀ c ∈ l, c ∈ d) →
      List.filter (fun c => !(c = '-' : Bool)) l = l := by
    intro l hl
    apply List.filter_eq_self.mpr
    intro a ha
    simp [hd a (hl a ha)]
  rw [List.filter_append]
  rw [show List.filter (fun c => !(c = '-' : Bool)) ('-' ::
      ((d.drop 8).take 4 ++ '-' :: ((d.drop 12).take 4 ++ '-' ::
        ((d.drop 16).take 4 ++ '-' :: d.drop 20)))) =
    List.filter (fun c => !(c = '-' : Bool))
      ((d.drop 8).take 4 ++ '-' :: ((d.drop 12).take 4 ++ '-' ::
        ((d.drop 16).take 4 ++ '-' :: d.drop 20))) from by
    rw [List.filter_cons]
    simp]
  rw [List.filter_append]
  rw [show List.filter (fun c => !(c = '-' : Bool)) ('-' ::
      ((d.drop 12).take 4 ++ '-' :: ((d.drop 16).take 4 ++ '-' ::
        d.drop 20))) =
    List.filter (fun c => !(c = '-' : Bool))
      ((d.drop 12).take 4 ++ '-' :: ((d.drop 16).take 4 ++ '-' ::
        d.drop 20)) from by
    rw [List.filter_cons]
    simp]
  rw [List.filter_append]
  rw [show List.filter (fun c => !(c = '-' : Bool)) ('-' ::
      ((d.drop 16).take 4 ++ '-' :: d.drop 20)) =
    List.filter (fun c => !(c = '-' : Bool))
      ((d.drop 16).take 4 ++ '-' :: d.drop 20) from by
    rw [List.filter_cons]
    simp]
  rw [List.filter_append]
  rw [show List.filter (fun c => !(c = '-' : Bool)) ('-' :: d.drop 20) =
    List.filter (fun c => !(c = '-' : Bool)) (d.drop 20) from by
    rw [List.filter_cons]
    simp]
  rw [hseg (d.take 8) (fun c hc => List.mem_of_mem_take hc)]
  rw [hseg ((d.drop 8).take 4)
    (fun c hc => List.mem_of_mem_drop (List.mem_of_mem_take hc))]
  rw [hseg ((d.drop 12).take 4)
    (fun c hc => List.mem_of_mem_drop (List.mem_of_mem_take hc))]
  rw [hseg ((d.drop 16).take 4)
    (fun c hc => List.mem_of_mem_drop (List.mem_of_mem_take hc))]
  rw [hseg (d.drop 20) (fun c hc => List.mem_of_mem_drop hc)]
  exact segs_eq d

theorem uuid4Int_lt (r : Nat)
    (h : r < 340282366920938463463374607431768211456) :
    uuid4Int r < 340282366920938463463374607431768211456 := by
  rw [uuid4Int, setVariant, setVersion]
  omega

theorem uuid4Str_data (r : Nat) :
    (uuid4Str r).data = (hexFixed 32 (uuid4Int r)).take 8 ++ '-' ::
      (((hexFixed 32 (uuid4Int r)).drop 8).take 4 ++ '-' ::
        (((hexFixed 32 (uuid4Int r)).drop 12).take 4 ++ '-' ::
          (((hexFixed 32 (uuid4Int r)).drop 16).take 4 ++ '-' ::
            (hexFixed 32 (uuid4Int r)).drop 20))) := rfl

theorem uuid4Str_ne_empty (r : Nat) : uuid4Str r ≠ "" := by
  intro heq
  have hdata := congrArg String.data heq
  rw [uuid4Str_data] at hdata
  simp at hdata

theorem uuid4Str_inj (r1 r2 : Nat)
    (h1 : r1 < 340282366920938463463374607431768211456)
    (h2 : r2 < 340282366920938463463374607431768211456)
    (hne : uuid4Int r1 ≠ uuid4Int r2) : uuid4Str r1 ≠ uuid4Str r2 := by
  intro heq
  have hdata := congrArg String.data heq
  rw [uuid4Str_data, uuid4Str_data] at hdata
  have hfd := congrArg (List.filter (fun c => !(c = '-' : Bool))) hdata
  rw [filter_dashes_uuid _ (fun c hc => by
      obtain ⟨dd, hdd, rfl⟩ := hexFixed_all_digits 32 (uuid4Int r1) c hc
      exact hexDigitChar_ne_dash dd hdd),
    filter_dashes_uuid _ (fun c hc => by
      obtain ⟨dd, hdd, rfl⟩ := hexFixed_all_digits 32 (uuid4Int r2) c hc
      exact hexDigitChar_ne_dash dd hdd)] at hfd
  have hval := congrArg hexToNat hfd
  rw [hexToNat_hexFixed, hexToNat_hexFixed] at hval
  have hb1 := uuid4Int_lt r1 h1
  have hb2 := uuid4Int_lt r2 h2
  rw [Nat.mod_eq_of_lt (by exact_mod_cast hb1),
    Nat.mod_eq_of_lt (by exact_mod_cast hb2)] at hval
  exact hne hval

/-- The key list of a JSON object. -/
def jsonKeys : Json → List String
  | .obj ms => ms.map Prod.fst
  | _ => []

/-- Claim C1: for every method and params argument (`none` modelling an
absent/None params, which defaults to the empty mapping), the request payload
decodes back to the envelope JSON, whose keys are exactly
`id, v, method, params`, with `v = 1`; and the `id` is a non-empty string
that differs between two invocations whose underlying 128-bit random draws
produce distinct uuid integers. -/
theorem claim_C1 (r1 r2 : Nat) (method : String) (params : Option Json)
    (h1 : r1 < 340282366920938463463374607431768211456)
    (h2 : r2 < 340282366920938463463374607431768211456)
    (hfresh : uuid4Int r1 ≠ uuid4Int r2) :
    utf8Decode (requestPayload r1 method params) =
      some (dumpVal (requestJson r1 method params) ++ ['\n']) ∧
    loads (pyStrip (dumpVal (requestJson r1 method params) ++ ['\n'])) =
      some (requestJson r1 method params) ∧
    jsonKeys (requestJson r1 method params) =
      ["id", "v", "method", "params"] ∧
    dictIndex (requestJson r1 method params) "v" = .ok (.num 1) ∧
    dictIndex (requestJson r1 method params) "id" =
      .ok (.str (uuid4Str r1)) ∧
    uuid4Str r1 ≠ "" ∧
    uuid4Str r1 ≠ uuid4Str r2 := by
  refine ⟨?_, ?_, rfl, rfl, rfl, uuid4Str_ne_empty r1,
    uuid4Str_inj r1 r2 h1 h2 hfresh⟩
  · rw [requestPayload]
    have h := utf8Decode_encode
      (dumpVal (requestJson r1 method params) ++ ['\n']) []
    simpa using h
  · obtain ⟨c0, t0, hh, h0⟩ :=
      dumpVal_head_not_pyWs (requestJson r1 method params)
    obtain ⟨cL, hL, hLw⟩ := dumpVal_last (requestJson r1 method params)
    rw [pyStrip_body_trail (dumpVal (requestJson r1 method params))
      ['\n'] c0 t0 hh h0 cL hL hLw
      (by intro x hx; simp at hx; subst hx; decide)]
    have := loads_dump_trail (requestJson r1 method params) []
      (by intro x hx; simp at hx)
    simpa using this

theorem claim_C1_witness :
    ((0 : Nat) < 340282366920938463463374607431768211456 ∧
      (1 : Nat) < 340282366920938463463374607431768211456 ∧
      uuid4Int 0 ≠ uuid4Int 1) ∧
    (utf8Decode (requestPayload 0 "health" none) =
        some (dumpVal (requestJson 0 "health" none) ++ ['\n']) ∧
      loads (pyStrip (dumpVal (requestJson 0 "health" none) ++ ['\n'])) =
        some (requestJson 0 "health" none) ∧
      jsonKeys (requestJson 0 "health" none) =
        ["id", "v", "method", "params"] ∧
      dictIndex (requestJson 0 "health" none) "v" = .ok (.num 1) ∧
      dictIndex (requestJson 0 "health" none) "id" =
        .ok (.str (uuid4Str 0)) ∧
      uuid4Str 0 ≠ "" ∧
      uuid4Str 0 ≠ uuid4Str 1) :=
  ⟨⟨by decide, by decide, by decide⟩,
    claim_C1 0 1 "health" none (by decide) (by decide) (by decide)⟩

end FGPVercel














